import Mathlib

/-
Verification of the SnapChef LLM response recovery and normalization
pipeline.

This file is a shallow embedding, over lists of characters, of the
parsing, validation and normalization functions of the repository:
`prompts/combined_prompt.py` (strict and regex-scoped extraction),
`webapp-archive/prompts/combined_prompt.py` (the variant that adds the
truncated-JSON salvage path with the bracket-depth scanner),
`prompts/grok_prompts.py` (`validate_ingredient_response`,
`validate_recipe_response`) and `utils/api.py` (`generate_meals`,
`analyze_fridge_and_generate_recipes`), together with theorems settling
the specification claims about them.

Python strings are modelled as `List Char`; `json.loads` is modelled by
an executable recursive-descent parser over the JSON fragment with
integer numerals; Python dicts produced by `json.loads` are association
lists; a function that can raise an exception observed by its caller
returns an `Option` (or an explicit exception marker).
-/

set_option maxRecDepth 40000

namespace SnapChef

/-- Opening curly brace character, written by code point so that JSON
    text in this file stays uniform. -/
def obC : Char := '\x7b'

/-- Closing curly brace character. -/
def cbC : Char := '\x7d'

/-- JSON values as produced by the modelled `json.loads`: null, booleans,
    integer numerals, strings, arrays and objects (association lists). -/
inductive Json where
  | null
  | bool (b : Bool)
  | num (n : Int)
  | str (s : List Char)
  | arr (xs : List Json)
  | obj (ms : List (List Char × Json))

instance : Inhabited Json := ⟨.null⟩

/-- Python truthiness of a JSON value (`bool(v)`): `None`, `False`, `0`,
    the empty string, the empty list and the empty dict are falsy. -/
def pyTruthy : Json → Bool
  | .null => false
  | .bool b => b
  | .num n => n != 0
  | .str s => !s.isEmpty
  | .arr xs => !xs.isEmpty
  | .obj ms => !ms.isEmpty

/-- Model of `d[k]` / `d.get(k)` lookup on a dict built by `json.loads`
    (keys are unique in such dicts, so the first match suffices). -/
def getKey : List (List Char × Json) → List Char → Option Json
  | [], _ => none
  | (k, v) :: ms, key => if k = key then some v else getKey ms key

/-- Model of `d.get(k, dflt)`. -/
def getKeyD (ms : List (List Char × Json)) (key : List Char) (dflt : Json) : Json :=
  (getKey ms key).getD dflt

/-- Decimal digit character for `n < 10`. -/
def digCh : Nat → Char
  | 0 => '0' | 1 => '1' | 2 => '2' | 3 => '3' | 4 => '4'
  | 5 => '5' | 6 => '6' | 7 => '7' | 8 => '8' | _ => '9'

/-- Decimal digit characters of a natural number, most significant first
    (fuel-indexed so that it unfolds definitionally; any fuel above `n`
    gives the full digit string). -/
def natCharsF : Nat → Nat → List Char
  | 0, _ => []
  | f + 1, n => if n < 10 then [digCh n] else natCharsF f (n / 10) ++ [digCh (n % 10)]

/-- Decimal digit characters of a natural number. -/
def natChars (n : Nat) : List Char := natCharsF (n + 1) n

/-- Decimal characters of an integer: optional minus sign, then digits
    (the same text `str(i)` produces in Python). -/
def intChars (i : Int) : List Char :=
  if i < 0 then '-' :: natChars i.natAbs else natChars i.natAbs

/-- Single-quote character. -/
def sqC : Char := '\x27'

/-- Characters of one string character inside a Python `repr`, escaping
    the backslash and the single quote. -/
def reprEsc (c : Char) : List Char :=
  if c = '\\' then ['\\', '\\']
  else if c = sqC then ['\\', sqC]
  else if c = '\n' then ['\\', 'n']
  else if c = '\t' then ['\\', 't']
  else if c = '\r' then ['\\', 'r']
  else [c]

/-- Python `repr` text of a string: single-quoted, escaped. -/
def reprStrL (s : List Char) : List Char := sqC :: (s.flatMap reprEsc ++ [sqC])

mutual
/-- Model of Python `repr` on a JSON value (scalars exactly; container
    and string text in the common single-quoted form). -/
def pyRepr : Json → List Char
  | .null => ['N', 'o', 'n', 'e']
  | .bool true => ['T', 'r', 'u', 'e']
  | .bool false => ['F', 'a', 'l', 's', 'e']
  | .num n => intChars n
  | .str s => reprStrL s
  | .arr xs => '[' :: (pyReprItems xs ++ [']'])
  | .obj ms => obC :: (pyReprEntries ms ++ [cbC])

/-- Comma-separated `repr`s of list elements. -/
def pyReprItems : List Json → List Char
  | [] => []
  | x :: xs => pyRepr x ++ pyReprSep xs

/-- Tail of a `repr`ed list: a `", "` before every element. -/
def pyReprSep : List Json → List Char
  | [] => []
  | x :: xs => ',' :: ' ' :: (pyRepr x ++ pyReprSep xs)

/-- Comma-separated `repr`s of dict entries. -/
def pyReprEntries : List (List Char × Json) → List Char
  | [] => []
  | (k, v) :: ms => reprStrL k ++ ':' :: ' ' :: (pyRepr v ++ pyReprESep ms)

/-- Tail of a `repr`ed dict: a `", "` before every entry. -/
def pyReprESep : List (List Char × Json) → List Char
  | [] => []
  | (k, v) :: ms => ',' :: ' ' :: (reprStrL k ++ ':' :: ' ' :: (pyRepr v ++ pyReprESep ms))
end

/-- Model of Python `str()` on a JSON value (as used by f-strings and the
    `str(...)` coercion in `validate_ingredient_response`): strings pass
    through, everything else renders like `repr`. -/
def pyStr : Json → List Char
  | .str s => s
  | v => pyRepr v

/-! ### A JSON serializer

The serializer used to state the truncation-recovery claim: compact
one-line output with `", "` and `": "` separators (the shape the model
emits inside one line, and a shape `json.loads` accepts). Strings escape
the quote and the backslash. -/

/-- Serialized characters of one string character. -/
def escC (c : Char) : List Char :=
  if c = '"' ∨ c = '\\' then ['\\', c] else [c]

/-- Serialized body of a string (no surrounding quotes). -/
def escL (s : List Char) : List Char := s.flatMap escC

/-- Serialized string, quotes included. -/
def serStr (s : List Char) : List Char := '"' :: (escL s ++ ['"'])

mutual
/-- Serialize a JSON value. -/
def serJ : Json → List Char
  | .num n => intChars n
  | .null => "null".toList
  | .bool true => "true".toList
  | .bool false => "false".toList
  | .str s => serStr s
  | .arr xs => '[' :: (serItems xs ++ [']'])
  | .obj ms => obC :: (serEntries ms ++ [cbC])

/-- Serialize array elements, `", "`-separated. -/
def serItems : List Json → List Char
  | [] => []
  | x :: xs => serJ x ++ serSep xs

/-- Tail of a serialized element list: a `", "` before every element. -/
def serSep : List Json → List Char
  | [] => []
  | x :: xs => ',' :: ' ' :: (serJ x ++ serSep xs)

/-- Serialize object entries, `", "`-separated, `": "` after each key. -/
def serEntries : List (List Char × Json) → List Char
  | [] => []
  | (k, v) :: ms => serStr k ++ ':' :: ' ' :: (serJ v ++ serESep ms)

/-- Tail of a serialized entry list: a `", "` before every entry. -/
def serESep : List (List Char × Json) → List Char
  | [] => []
  | (k, v) :: ms => ',' :: ' ' :: (serStr k ++ ':' :: ' ' :: (serJ v ++ serESep ms))
end

/-! ### Model of `json.loads`

A fuel-indexed recursive-descent parser for the JSON fragment with
integer numerals. It consumes whitespace as `json.loads` does, requires
the whole input (up to trailing whitespace) to be one value, and returns
`none` where `json.loads` raises `JSONDecodeError`. -/

/-- JSON whitespace. -/
def isWsC (c : Char) : Bool :=
  c == ' ' || (c == '\t' || (c == '\n' || c == '\r'))

/-- Decimal digit test. -/
def isDig (c : Char) : Bool := 48 ≤ c.toNat && c.toNat ≤ 57

/-- Drop leading JSON whitespace. -/
def dropWs : List Char → List Char
  | [] => []
  | c :: cs => if isWsC c then dropWs cs else c :: cs

/-- Split a leading run of digits from the rest. -/
def spanDig : List Char → List Char × List Char
  | [] => ([], [])
  | c :: cs =>
    if isDig c then
      let p := spanDig cs
      (c :: p.1, p.2)
    else ([], c :: cs)

/-- Value of a digit run. -/
def digValue (ds : List Char) : Nat :=
  ds.foldl (fun a c => a * 10 + (c.toNat - 48)) 0

/-- Digit run acceptable as a JSON numeral: nonempty and without a
    leading zero (`0` itself allowed). -/
def digRunOk : List Char → Bool
  | [] => false
  | ['0'] => true
  | '0' :: _ :: _ => false
  | _ :: _ => true

/-- Lex an integer numeral: optional minus sign, then a digit run with no
    leading zero. -/
def lexInt (cs : List Char) : Option (Json × List Char) :=
  match cs with
  | '-' :: r =>
    let p := spanDig r
    if digRunOk p.1 then some (.num (-(digValue p.1 : Int)), p.2) else none
  | _ =>
    let p := spanDig cs
    if digRunOk p.1 then some (.num (digValue p.1), p.2) else none

/-- Decode one escape character of a JSON string. -/
def unescChar (e : Char) : Option Char :=
  if e = '"' ∨ e = '\\' ∨ e = '/' then some e
  else if e = 'n' then some '\n'
  else if e = 't' then some '\t'
  else if e = 'r' then some '\r'
  else if e = 'b' then some (Char.ofNat 8)
  else if e = 'f' then some (Char.ofNat 12)
  else none

/-- Lex a string body after the opening quote, up to and including the
    closing quote; returns the decoded content and the rest. -/
def lexStr : List Char → Option (List Char × List Char)
  | [] => none
  | '\\' :: [] => none
  | '\\' :: e :: cs2 =>
    match unescChar e with
    | some d => (lexStr cs2).map fun p => (d :: p.1, p.2)
    | none => none
  | c :: cs =>
    if c = '"' then some ([], cs)
    else (lexStr cs).map fun p => (c :: p.1, p.2)

mutual
/-- Parse one JSON value (fuel-indexed). -/
def parseVal : Nat → List Char → Option (Json × List Char)
  | 0, _ => none
  | fuel + 1, cs =>
    match dropWs cs with
    | 'n' :: 'u' :: 'l' :: 'l' :: r => some (.null, r)
    | 't' :: 'r' :: 'u' :: 'e' :: r => some (.bool true, r)
    | 'f' :: 'a' :: 'l' :: 's' :: 'e' :: r => some (.bool false, r)
    | '"' :: r => (lexStr r).map fun p => (.str p.1, p.2)
    | '[' :: r =>
      (match dropWs r with
       | ']' :: r2 => some (.arr [], r2)
       | r1 => (parseItems fuel r1).map fun p => (.arr p.1, p.2))
    | c :: r =>
      if c = obC then
        match dropWs r with
        | c2 :: r2 =>
          if c2 = cbC then some (.obj [], r2)
          else (parseEntries fuel (c2 :: r2)).map fun p => (.obj p.1, p.2)
        | [] => none
      else if c = '-' || isDig c then lexInt (c :: r)
      else none
    | [] => none

/-- Parse one or more comma-separated array elements, consuming the
    closing bracket. -/
def parseItems : Nat → List Char → Option (List Json × List Char)
  | 0, _ => none
  | fuel + 1, cs =>
    match parseVal fuel cs with
    | none => none
    | some (v, r) =>
      match dropWs r with
      | ',' :: r2 => (parseItems fuel r2).map fun p => (v :: p.1, p.2)
      | ']' :: r2 => some ([v], r2)
      | _ => none

/-- Parse one or more comma-separated object entries, consuming the
    closing brace. -/
def parseEntries : Nat → List Char → Option (List (List Char × Json) × List Char)
  | 0, _ => none
  | fuel + 1, cs =>
    match dropWs cs with
    | '"' :: r =>
      match lexStr r with
      | none => none
      | some (k, r1) =>
        match dropWs r1 with
        | ':' :: r2 =>
          match parseVal fuel r2 with
          | none => none
          | some (v, r3) =>
            match dropWs r3 with
            | ',' :: r4 => (parseEntries fuel r4).map fun p => ((k, v) :: p.1, p.2)
            | c :: r4 => if c = cbC then some ([(k, v)], r4) else none
            | [] => none
        | _ => none
    | _ => none
end

/-- Model of `json.loads`: parse one value and require only whitespace
    after it; `none` models a raised `JSONDecodeError`. -/
def jsonLoads (cs : List Char) : Option Json :=
  match parseVal (cs.length + 1) cs with
  | some (v, r) => if dropWs r = [] then some v else none
  | none => none

/-! ### Python string helpers

Models of `str.find`, `str.rfind` (for one character) and the regular
expressions the repository uses, as direct executable functions. -/

/-- Model of `hay.find(nd)`: index of the first occurrence, `none` for
    Python's `-1`. -/
def strFind (nd : List Char) : List Char → Option Nat
  | [] => if nd.isEmpty then some 0 else none
  | c :: t => if nd.isPrefixOf (c :: t) then some 0 else (strFind nd t).map (· + 1)

/-- Index of the first occurrence of a character (`s.find(c)`). -/
def firstIdxOf (c : Char) : List Char → Option Nat
  | [] => none
  | x :: xs => if x = c then some 0 else (firstIdxOf c xs).map (· + 1)

/-- Index of the last occurrence of a character (`s.rfind(c)`). -/
def lastIdxOf (c : Char) : List Char → Option Nat
  | [] => none
  | x :: xs =>
    match lastIdxOf c xs with
    | some j => some (j + 1)
    | none => if x = c then some 0 else none

/-- All occurrence indices of `nd`, ascending. -/
def occIdx (nd : List Char) : List Char → List Nat
  | [] => if nd.isEmpty then [0] else []
  | c :: cs => (if nd.isPrefixOf (c :: cs) then [0] else []) ++ (occIdx nd cs).map (· + 1)

/-- Split a leading run of characters satisfying `p` from the rest. -/
def spanPred (p : Char → Bool) : List Char → List Char × List Char
  | [] => ([], [])
  | c :: cs =>
    if p c then
      let q := spanPred p cs
      (c :: q.1, q.2)
    else ([], c :: cs)

/-- Model of `re.search(r'\{.*\}', s, re.DOTALL).group()`: the leftmost
    `{` through the last `}`, when the latter follows the former. -/
def braceSearch (s : List Char) : Option (List Char) :=
  match firstIdxOf obC s, lastIdxOf cbC s with
  | some a, some j => if a < j then some ((s.take (j + 1)).drop a) else none
  | _, _ => none

/-- The bracket-depth scanner loop of the archived
    `parse_combined_response` (webapp-archive/prompts/combined_prompt.py,
    lines 176 to 194), verbatim: quote toggling with escape tracking,
    square brackets counted outside strings, stopping at a `]` seen at
    depth zero and returning its index. -/
def findClose (inStr esc : Bool) (cnt idx : Nat) : List Char → Option Nat
  | [] => none
  | c :: cs =>
    if esc then findClose inStr false cnt (idx + 1) cs
    else if c = '\\' then findClose inStr true cnt (idx + 1) cs
    else if c = '"' then findClose (!inStr) false cnt (idx + 1) cs
    else if inStr then findClose inStr esc cnt (idx + 1) cs
    else if c = '[' then findClose inStr esc (cnt + 1) (idx + 1) cs
    else if c = ']' then
      if cnt = 0 then some idx else findClose inStr esc (cnt - 1) (idx + 1) cs
    else findClose inStr esc cnt (idx + 1) cs

/-- Try a function on each candidate in order, returning the first hit
    (models regex backtracking over candidate split points). -/
def tryEach {α : Type} (f : Nat → Option α) : List Nat → Option α
  | [] => none
  | k :: ks =>
    match f k with
    | some v => some v
    | none => tryEach f ks

/-- Occurrences of `lit` in `r` reachable through a brace-free gap
    (candidate split points for a `[^{}]*` before the literal). -/
def braceFreeCands (lit r : List Char) : List Nat :=
  (occIdx lit r).filter fun k => !(r.take k).any fun ch => ch == obC || ch == cbC

/-- Continuation of the `\{[^{}]*LIT\s*:\s*\[[^\]]α\][^{}]*\}` patterns
    after one candidate literal occurrence at offset `k` of `r` (the text
    after the opening brace): returns the rest of the input after the
    closing brace of the match.  `needOne` selects `[^\]]+` over
    `[^\]]*`. -/
def alt1One (lit : List Char) (needOne : Bool) (r : List Char) (k : Nat)
    : Option (List Char) :=
  match dropWs (r.drop (k + lit.length)) with
  | ':' :: r4 =>
    match dropWs r4 with
    | '[' :: r6 =>
      let q := spanPred (fun ch => ch != ']') r6
      if needOne && q.1.isEmpty then none
      else
        match q.2 with
        | ']' :: r7 =>
          let w := spanPred (fun ch => ch != obC && ch != cbC) r7
          match w.2 with
          | c2 :: r8 => if c2 = cbC then some r8 else none
          | [] => none
        | _ => none
    | _ => none
  | _ => none

/-- Match of `\{[^{}]*LIT\s*:\s*\[[^\]]α\][^{}]*\}` anchored at the head
    of `s`: the input left after the match, candidates tried greedily
    (rightmost literal occurrence first). -/
def alt1At (lit : List Char) (needOne : Bool) (s : List Char) : Option (List Char) :=
  match s with
  | c :: r =>
    if c = obC then tryEach (alt1One lit needOne r) (braceFreeCands lit r).reverse
    else none
  | [] => none

/-- Continuation of `\[[^\[\]]*\{[^{}]+\}[^\[\]]*\]` after one candidate
    opening-brace offset `k` of `r` (the text after the opening
    bracket). -/
def alt2One (r : List Char) (k : Nat) : Option (List Char) :=
  let q := spanPred (fun ch => ch != obC && ch != cbC) (r.drop (k + 1))
  if q.1.isEmpty then none
  else
    match q.2 with
    | c2 :: r3 =>
      if c2 = cbC then
        let w := spanPred (fun ch => ch != '[' && ch != ']') r3
        match w.2 with
        | c3 :: r4 => if c3 = ']' then some r4 else none
        | [] => none
      else none
    | [] => none

/-- Match of `\[[^\[\]]*\{[^{}]+\}[^\[\]]*\]` anchored at the head of
    `s`. -/
def alt2At (s : List Char) : Option (List Char) :=
  match s with
  | '[' :: r =>
    let cands := ((occIdx [obC] r).filter fun k =>
      !(r.take k).any fun ch => ch == '[' || ch == ']').reverse
    tryEach (alt2One r) cands
  | _ => none

/-- Leftmost match of an anchored pattern: scan start positions left to
    right and return the matched text. -/
def searchTextAux (patAt : List Char → Option (List Char)) : List Char → Option (List Char)
  | [] => none
  | c :: t =>
    match patAt (c :: t) with
    | some rem => some ((c :: t).take ((c :: t).length - rem.length))
    | none => searchTextAux patAt t

/-- The literal `"ingredients"` with quotes. -/
def litIngr : List Char := ('"' :: "ingredients".toList) ++ ['"']

/-- The literal `"recipes"` with quotes. -/
def litRec : List Char := ('"' :: "recipes".toList) ++ ['"']

/-- Model of `re.search(r'\{[^{}]*"ingredients"\s*:\s*\[[^\]]*\][^{}]*\}', s,
    re.DOTALL)` from `validate_ingredient_response`. -/
def ingrRegexSearch (s : List Char) : Option (List Char) :=
  searchTextAux (alt1At litIngr false) s

/-- Model of the alternation
    `\{[^{}]*"recipes"\s*:\s*\[[^\]]+\][^{}]*\}|\[[^\[\]]*\{[^{}]+\}[^\[\]]*\]`
    anchored at one position (first alternative preferred, as in Python). -/
def recRegexAt (s : List Char) : Option (List Char) :=
  match alt1At litRec true s with
  | some rem => some rem
  | none => alt2At s

/-- Model of the `re.search` in `validate_recipe_response`. -/
def recRegexSearch (s : List Char) : Option (List Char) :=
  searchTextAux recRegexAt s

/-- The literal `"image_analysis":` with quotes. -/
def litIA : List Char := ('"' :: "image_analysis".toList) ++ ['"', ':']

/-- Match of `"image_analysis":\s*({[^}]+})` anchored at the head of `s`,
    returning the parenthesised group. -/
def iaScanAt (s : List Char) : Option (List Char) :=
  if litIA.isPrefixOf s then
    match dropWs (s.drop litIA.length) with
    | c :: r2 =>
      if c = obC then
        let q := spanPred (fun ch => ch != cbC) r2
        match q.2 with
        | c2 :: _ =>
          if c2 = cbC && !q.1.isEmpty then some (obC :: (q.1 ++ [cbC])) else none
        | [] => none
      else none
    | [] => none
  else none

/-- Model of `re.search(r'"image_analysis":\s*({[^}]+})', s).group(1)`. -/
def iaSearch : List Char → Option (List Char)
  | [] => none
  | c :: t =>
    match iaScanAt (c :: t) with
    | some g => some g
    | none => iaSearch t

/-- The literal `"name":`. -/
def litName : List Char := ('"' :: "name".toList) ++ ['"', ':']

/-- Candidates for the `[^{]*?` gap of the recipe-object pattern:
    occurrences of `"name":` with no opening brace before them, ascending
    (lazy). -/
def nameCands (r : List Char) : List Nat :=
  (occIdx litName r).filter fun k => !(r.take k).any fun ch => ch == obC

/-- Continuation of `\{[^{]*?"name":[^}]+?\}` after the candidate
    occurrence at offset `k` of `r`: lazily up to the first `}` with at
    least one character before it; returns the total match length
    (opening brace included). -/
def recMatchOne (r : List Char) (k : Nat) : Option Nat :=
  let q := spanPred (fun ch => ch != cbC) (r.drop (k + litName.length))
  if q.1.isEmpty then none
  else
    match q.2 with
    | c2 :: _ => if c2 = cbC then some (1 + k + litName.length + q.1.length + 1) else none
    | [] => none

/-- Match of `\{[^{]*?"name":[^}]+?\}` anchored at the head of `s`:
    the match length. -/
def recMatchAt (s : List Char) : Option Nat :=
  match s with
  | c :: r => if c = obC then tryEach (recMatchOne r) (nameCands r) else none
  | [] => none

/-- Model of `re.findall(r'\{[^{]*?"name":[^}]+?\}', s)` (fuel-indexed;
    matches are non-overlapping, scanning resumes after each match). -/
def findallRecF : Nat → List Char → List (List Char)
  | 0, _ => []
  | f + 1, s =>
    match s with
    | [] => []
    | c :: t =>
      match recMatchAt (c :: t) with
      | some len => (c :: t).take len :: findallRecF f ((c :: t).drop len)
      | none => findallRecF f t

/-- Model of the `re.findall` in the archived recipe salvage. -/
def findallRec (s : List Char) : List (List Char) := findallRecF (s.length + 1) s

/-! ### `parse_combined_response`

Models of both versions: `prompts/combined_prompt.py` (strict parse, then
regex-scoped parse, then the failure dict) and the archived
`webapp-archive/prompts/combined_prompt.py` (which adds the
truncated-JSON salvage path). -/

/-- Key `"ingredients"`. -/
def kIngredients : List Char := "ingredients".toList
/-- Key `"recipes"`. -/
def kRecipes : List Char := "recipes".toList
/-- Key `"image_analysis"`. -/
def kImageAnalysis : List Char := "image_analysis".toList
/-- Key `"is_food_image"`. -/
def kIsFood : List Char := "is_food_image".toList
/-- Key `"error"`. -/
def kError : List Char := "error".toList
/-- Key `"name"`. -/
def kName : List Char := "name".toList

/-- The message placed under `image_analysis.error` by the failure
    return of `parse_combined_response`. -/
def msgParseFail : List Char := "Failed to parse response".toList

/-- The result dict of `parse_combined_response`, which always carries
    these four keys. -/
structure ParsedCombined where
  ingredients : Json
  recipes : Json
  image_analysis : Json
  raw : List Char

/-- Outcome of calling `parse_combined_response`: a returned dict, or an
    exception propagating to the caller (an `AttributeError` from
    `data.get` when the strict parse yields a non-dict). -/
inductive PCResult where
  | ok (p : ParsedCombined)
  | exc

/-- The success return: `data.get` with the defaults of the source. -/
def pcFromData (ms : List (List Char × Json)) (resp : List Char) : ParsedCombined :=
  ⟨getKeyD ms kIngredients (.arr []), getKeyD ms kRecipes (.arr []),
   getKeyD ms kImageAnalysis (.obj []), resp⟩

/-- The failure return of `parse_combined_response`: empty lists, the
    parse-failure marker tucked inside `image_analysis`, and no
    top-level `error` key. -/
def pcFail (resp : List Char) : ParsedCombined :=
  ⟨.arr [], .arr [], .obj [(kError, .str msgParseFail)], resp⟩

/-- Model of `parse_combined_response` of `prompts/combined_prompt.py`
    (the version imported by `utils/api.py`): strict `json.loads`, then
    the `\{.*\}`-scoped attempt, then the failure dict. -/
def parseCombined (resp : List Char) : PCResult :=
  match jsonLoads resp with
  | some (.obj ms) => .ok (pcFromData ms resp)
  | some _ => .exc
  | none =>
    match braceSearch resp with
    | some g =>
      match jsonLoads g with
      | some (.obj ms) => .ok (pcFromData ms resp)
      | _ => .ok (pcFail resp)
    | none => .ok (pcFail resp)

/-- The needle `"ingredients": [` of the salvage path (16 characters;
    the slice start uses the 15-character prefix without the bracket). -/
def needleIngrBr : List Char := ('"' :: "ingredients".toList) ++ ('"' :: ": [".toList)

/-- The needle `"recipes": [` of the salvage path. -/
def needleRecBr : List Char := ('"' :: "recipes".toList) ++ ('"' :: ": [".toList)

/-- The recipe-collection loop of the salvage path: the first five regex
    matches, each parsed independently, kept when it parses to a dict
    with a `name` key, silently skipped otherwise. -/
def recipesFromMatches (ml : List (List Char)) : List Json :=
  (ml.take 5).foldl
    (fun acc m =>
      match jsonLoads m with
      | some (.obj ms) => if (getKey ms kName).isSome then acc ++ [Json.obj ms] else acc
      | _ => acc)
    []

/-- The truncated-JSON salvage of the archived `parse_combined_response`
    (lines 163 to 236): locate `"ingredients": [`, run the bracket-depth
    scanner from right after it, parse the delimited array, then
    best-effort `image_analysis` and recipe extraction; any failure falls
    back to the failure dict. -/
def salvageCombined (resp : List Char) : ParsedCombined :=
  match strFind needleIngrBr resp with
  | none => pcFail resp
  | some a =>
    match findClose false false 0 (a + 16) (resp.drop (a + 16)) with
    | none => pcFail resp
    | some e =>
      match jsonLoads ((resp.take (e + 1)).drop (a + 15)) with
      | none => pcFail resp
      | some ings =>
        let ia : Json :=
          match iaSearch resp with
          | some g =>
            match jsonLoads g with
            | some v => v
            | none => .obj []
          | none => .obj []
        let recipes : List Json :=
          match strFind needleRecBr resp with
          | some rs => if e < rs then recipesFromMatches (findallRec (resp.drop rs)) else []
          | none => []
        ⟨ings, .arr recipes, ia, resp⟩

/-- Model of the archived `parse_combined_response`
    (webapp-archive/prompts/combined_prompt.py): strict parse, scoped
    parse, then the salvage path. -/
def parseCombinedArchive (resp : List Char) : PCResult :=
  match jsonLoads resp with
  | some (.obj ms) => .ok (pcFromData ms resp)
  | some _ => .exc
  | none =>
    match braceSearch resp with
    | some g =>
      match jsonLoads g with
      | some (.obj ms) => .ok (pcFromData ms resp)
      | _ => .ok (salvageCombined resp)
    | none => .ok (salvageCombined resp)

/-! ### The combined-pipeline orchestrator

Model of `analyze_fridge_and_generate_recipes` (utils/api.py, lines 286
to 360), from the point the upstream outcome is known: missing API key,
an exception (from the network call or from inside the `try`), or a
response text to parse. -/

/-- Upstream outcome fed to the orchestrator. -/
inductive Upstream where
  | noClient
  | exn (msg : List Char)
  | ok (content : List Char)

/-- The externally visible result dict: `error` and `raw_response` model
    key presence through `Option`. -/
structure PipelineResult where
  ingredients : Json
  recipes : Json
  image_analysis : Option Json
  error : Option (List Char)
  raw_response : Option (List Char)

/-- The missing-API-key message. -/
def msgApiKey : List Char := "API key not configured. Please set up your XAI_API_KEY.".toList

/-- The detection-failure (empty content) message of the combined
    pipeline. -/
def msgNoFood : List Char :=
  "No food ingredients detected. Please take a photo of your fridge, pantry, or kitchen ingredients.".toList

/-- Text prefix of the exception branch, `f"Error analyzing image: {str(e)}"`. -/
def errPre : List Char := "Error analyzing image: ".toList

/-- Stand-in for the `str(e)` text of the `AttributeError` raised when
    `.get` is called on a non-dict. -/
def msgAttr : List Char := "object has no attribute get".toList

/-- An error return of the orchestrator: empty lists and the message
    (these dicts carry no `image_analysis` and no `raw_response` key). -/
def errResult (m : List Char) : PipelineResult := ⟨.arr [], .arr [], none, some m, none⟩

/-- The success return of the orchestrator: the parse result unchanged,
    no `error` key. -/
def successResult (p : ParsedCombined) : PipelineResult :=
  ⟨p.ingredients, p.recipes, some p.image_analysis, none, some p.raw⟩

/-- Model of `analyze_fridge_and_generate_recipes`: parse the response,
    short-circuit to the detection-failure message when the ingredient
    list is falsy AND `image_analysis.get("is_food_image", True)` is
    falsy (evaluated in that order, as `and` short-circuits), and
    otherwise return the parse result unchanged; exceptions inside the
    `try` become the generic error dict. -/
def analyzeFridge : Upstream → PipelineResult
  | .noClient => errResult msgApiKey
  | .exn m => errResult (errPre ++ m)
  | .ok content =>
    match parseCombined content with
    | .exc => errResult (errPre ++ msgAttr)
    | .ok p =>
      if pyTruthy p.ingredients then successResult p
      else
        match p.image_analysis with
        | .obj ms =>
          if pyTruthy (getKeyD ms kIsFood (.bool true)) then successResult p
          else errResult msgNoFood
        | _ => errResult (errPre ++ msgAttr)

/-! ### `validate_ingredient_response` (prompts/grok_prompts.py)

The post-extraction body (lines 360 to 384) as `validateIngredientData`
on the parsed candidate, and the whole function as
`validateIngredientResponse` on the response text. -/

/-- Key `"estimated_quantity"`. -/
def kEstQ : List Char := "estimated_quantity".toList
/-- Key `"unit"`. -/
def kUnit : List Char := "unit".toList
/-- Key `"category"`. -/
def kCategory : List Char := "category".toList
/-- Key `"total_items"`. -/
def kTotalItems : List Char := "total_items".toList
/-- Key `"detection_confidence"`. -/
def kDetConf : List Char := "detection_confidence".toList

/-- One simplified ingredient record as appended by the validator:
    `{"name": ..., "quantity": str(...), "unit": ..., "category": ...}`. -/
structure IngRec where
  name : Json
  quantity : List Char
  unit : Json
  category : Json

/-- The validator's returned dict. -/
structure IngOut where
  ingredients : List IngRec
  confidence : Json
  total_items : Nat

/-- The filter `if ing.get('name')`: Python truthiness of the `name`
    value, with `None` for an absent key. -/
def ingKeep (ms : List (List Char × Json)) : Bool := pyTruthy (getKeyD ms kName .null)

/-- The record built for one kept ingredient. -/
def mkIngRec (ms : List (List Char × Json)) : IngRec :=
  ⟨getKeyD ms kName (.str []), pyStr (getKeyD ms kEstQ (.str [])),
   getKeyD ms kUnit (.str []), getKeyD ms kCategory (.str "other".toList)⟩

/-- The conversion loop over the candidate list; a non-dict element makes
    `ing.get` raise, failing the whole validation. -/
def ingLoop : List Json → Option (List IngRec)
  | [] => some []
  | .obj ms :: rest =>
    if ingKeep ms then (ingLoop rest).map (mkIngRec ms :: ·) else ingLoop rest
  | _ :: _ => none

/-- The body of `validate_ingredient_response` after `json.loads`:
    require the three keys, iterate the candidate list with the name
    filter, and return the simplified records with
    `total_items = len(ingredients)`.  An empty string or empty dict in
    place of the list iterates zero times in Python and is modelled so;
    any other non-list (or a non-dict candidate) raises and yields
    `None`. -/
def validateIngredientData (data : Json) : Option IngOut :=
  match data with
  | .obj ms =>
    if ((getKey ms kIngredients).isSome && (getKey ms kTotalItems).isSome)
        && (getKey ms kDetConf).isSome then
      match getKey ms kIngredients with
      | some (.arr xs) =>
        (ingLoop xs).map fun recs =>
          ⟨recs, getKeyD ms kDetConf (.str "low".toList), recs.length⟩
      | some (.str []) => some ⟨[], getKeyD ms kDetConf (.str "low".toList), 0⟩
      | some (.obj []) => some ⟨[], getKeyD ms kDetConf (.str "low".toList), 0⟩
      | _ => none
    else none
  | _ => none

/-- Model of `validate_ingredient_response` on the response text. -/
def validateIngredientResponse (s : List Char) : Option IngOut :=
  match ingrRegexSearch s with
  | none => none
  | some g =>
    match jsonLoads g with
    | none => none
    | some d => validateIngredientData d

/-! ### `validate_recipe_response` (prompts/grok_prompts.py, lines 386
to 459) -/

/-- Key `"description"`. -/
def kDescription : List Char := "description".toList
/-- Key `"main_dish"`. -/
def kMainDish : List Char := "main_dish".toList
/-- Key `"side_dish"`. -/
def kSideDish : List Char := "side_dish".toList
/-- Key `"total_time"`. -/
def kTotalTime : List Char := "total_time".toList
/-- Key `"prep_time"`. -/
def kPrepTime : List Char := "prep_time".toList
/-- Key `"cook_time"`. -/
def kCookTime : List Char := "cook_time".toList
/-- Key `"servings"`. -/
def kServings : List Char := "servings".toList
/-- Key `"difficulty"`. -/
def kDifficulty : List Char := "difficulty".toList
/-- Key `"ingredients_used"`. -/
def kIngrUsed : List Char := "ingredients_used".toList
/-- Key `"instructions"`. -/
def kInstructions : List Char := "instructions".toList
/-- Key `"instruction"`. -/
def kInstruction : List Char := "instruction".toList
/-- Key `"nutrition_info"`. -/
def kNutritionInfo : List Char := "nutrition_info".toList
/-- Key `"nutrition"`. -/
def kNutrition : List Char := "nutrition".toList
/-- Key `"calories"`. -/
def kCalories : List Char := "calories".toList
/-- Key `"calories_per_serving"`. -/
def kCalPerServing : List Char := "calories_per_serving".toList
/-- Key `"protein_g"`. -/
def kProteinG : List Char := "protein_g".toList
/-- Key `"protein"`. -/
def kProtein : List Char := "protein".toList
/-- Key `"carbs_g"`. -/
def kCarbsG : List Char := "carbs_g".toList
/-- Key `"carbs"`. -/
def kCarbs : List Char := "carbs".toList
/-- Key `"fat_g"`. -/
def kFatG : List Char := "fat_g".toList
/-- Key `"fat"`. -/
def kFat : List Char := "fat".toList
/-- Key `"tips"`. -/
def kTips : List Char := "tips".toList
/-- Key `"tip"`. -/
def kTip : List Char := "tip".toList
/-- Key `"tags"`. -/
def kTags : List Char := "tags".toList
/-- Key `"share_caption"`. -/
def kShareCaption : List Char := "share_caption".toList

/-- One formatted recipe as built by the validator (the `nutrition`
    sub-dict flattened into its four fields). -/
structure RecOut where
  name : Json
  description : Json
  main_dish : Json
  side_dish : Json
  total_time : Json
  prep_time : Json
  cook_time : Json
  servings : Json
  difficulty : Json
  ingredients_used : Json
  instructions : List Json
  calories : Json
  protein : Json
  carbs : Json
  fat : Json
  tips : Json
  tags : Json
  share_caption : Json

/-- The instruction-dict branch: `inst.get('instruction', '')` over every
    element; a non-dict element past the first raises. -/
def instrDicts : List Json → Option (List Json)
  | [] => some []
  | .obj ims :: t => (instrDicts t).map (getKeyD ims kInstruction (.str []) :: ·)
  | _ :: _ => none

/-- The instruction-format dispatch: a nonempty list whose first element
    is a dict goes through the dict branch, any other nonempty list is
    taken as-is, anything else becomes the empty list. -/
def instrList (v : Json) : Option (List Json) :=
  match v with
  | .arr [] => some []
  | .arr (x :: t) =>
    match x with
    | .obj _ => instrDicts (x :: t)
    | _ => some (x :: t)
  | _ => some []

/-- The default share caption,
    `f"Just made {recipe.get('name', 'this amazing dish')}! 🍳✨ #SnapChefChallenge"`. -/
def capText (ms : List (List Char × Json)) : List Char :=
  "Just made ".toList
    ++ pyStr (getKeyD ms kName (.str "this amazing dish".toList))
    ++ "! 🍳✨ #SnapChefChallenge".toList

/-- The per-recipe formatting of `validate_recipe_response` (lines 416
    to 453): every field individually defaulted; `none` models an
    exception (a non-dict recipe, a non-dict nutrition value, or a mixed
    instruction list). -/
def fmtRecipe (r : Json) : Option RecOut :=
  match r with
  | .obj ms =>
    let nut : Json :=
      match getKey ms kNutritionInfo with
      | some v => v
      | none => getKeyD ms kNutrition (.obj [])
    match nut with
    | .obj ns =>
      (instrList (getKeyD ms kInstructions (.arr []))).map fun il =>
        { name := getKeyD ms kName (.str "Untitled Recipe".toList)
          description := getKeyD ms kDescription (.str [])
          main_dish :=
            match getKey ms kMainDish with
            | some v => v
            | none => getKeyD ms kName (.str [])
          side_dish := getKeyD ms kSideDish (.str [])
          total_time := getKeyD ms kTotalTime (.num 30)
          prep_time := getKeyD ms kPrepTime (.num 10)
          cook_time := getKeyD ms kCookTime (.num 20)
          servings := getKeyD ms kServings (.num 4)
          difficulty := getKeyD ms kDifficulty (.str "medium".toList)
          ingredients_used :=
            match getKey ms kIngrUsed with
            | some v => v
            | none => getKeyD ms kIngredients (.arr [])
          instructions := il
          calories :=
            match getKey ns kCalories with
            | some v => v
            | none => getKeyD ns kCalPerServing (.num 0)
          protein :=
            match getKey ns kProteinG with
            | some v => v
            | none => getKeyD ns kProtein (.num 0)
          carbs :=
            match getKey ns kCarbsG with
            | some v => v
            | none => getKeyD ns kCarbs (.num 0)
          fat :=
            match getKey ns kFatG with
            | some v => v
            | none => getKeyD ns kFat (.num 0)
          tips :=
            match getKey ms kTips with
            | some v => v
            | none => getKeyD ms kTip (.str [])
          tags := getKeyD ms kTags (.arr [])
          share_caption :=
            match getKey ms kShareCaption with
            | some v => v
            | none => .str (capText ms) }
    | _ => none
  | _ => none

/-- Format candidates in order, failing on the first exception (the
    Python loop appends one by one and an exception discards the batch). -/
def fmtAll : List Json → Option (List RecOut)
  | [] => some []
  | x :: t =>
    match fmtRecipe x with
    | none => none
    | some y => (fmtAll t).map (y :: ·)

/-- The batch loop: the first five candidates formatted in order; an
    exception on any one fails the batch; an empty batch yields `None`. -/
def fmtBatch (xs : List Json) : Option (List RecOut) :=
  match fmtAll (xs.take 5) with
  | none => none
  | some fr => if fr.isEmpty then none else some fr

/-- The body of `validate_recipe_response` after `json.loads`: a dict
    with a `recipes` list, or a direct list; anything else is `None`. -/
def validateRecipeData (data : Json) : Option (List RecOut) :=
  match data with
  | .obj ms =>
    match getKey ms kRecipes with
    | some (.arr xs) => fmtBatch xs
    | _ => none
  | .arr xs => fmtBatch xs
  | _ => none

/-- Model of `validate_recipe_response` on the response text. -/
def validateRecipeResponse (s : List Char) : Option (List RecOut) :=
  match recRegexSearch s with
  | none => none
  | some g =>
    match jsonLoads g with
    | none => none
    | some d => validateRecipeData d

/-! ### `generate_meals` (utils/api.py, lines 130 to 194)

The part after the model response is received: the validated path
(requiring at least five recipes), the raw bracket-to-bracket fallback,
and the empty list on failure. -/

/-- Result of `generate_meals` on a model response: validated recipes,
    raw recipe dicts from the bracket fallback, or the empty list. -/
inductive MealsResult where
  | validated (rs : List RecOut)
  | raw (rs : List Json)
  | empty

/-- The raw-array fallback: `content.find('[')` through
    `content.rfind(']')`, parsed, accepted when it is a nonempty list. -/
def rawArrayFallback (content : List Char) : MealsResult :=
  match firstIdxOf '[' content, lastIdxOf ']' content with
  | some a, some j =>
    if a < j + 1 then
      match jsonLoads ((content.take (j + 1)).drop a) with
      | some (.arr (x :: t)) => .raw ((x :: t).take 5)
      | _ => .empty
    else .empty
  | some _, none => .empty
  | none, _ => .empty

/-- Model of `generate_meals` from the response text on: the validator
    output is used only when it has at least five recipes; otherwise the
    raw fallback; otherwise the empty list (never mock data). -/
def generateMealsFromContent (content : List Char) : MealsResult :=
  match validateRecipeResponse content with
  | some rs => if 5 ≤ rs.length then .validated (rs.take 5) else rawArrayFallback content
  | none => rawArrayFallback content

/-! ### Helper lemmas about the validators -/

/-- Dict test on a JSON value. -/
def isObjJ : Json → Bool
  | .obj _ => true
  | _ => false

/-- Truthiness of the name filter lifted to a JSON candidate. -/
def ingKeepJ : Json → Bool
  | .obj ms => ingKeep ms
  | _ => false

/-- The records the ingredient loop produces: the kept candidates, in
    order, each simplified. -/
def ingRecsOf (ings : List Json) : List IngRec :=
  ings.filterMap fun i =>
    match i with
    | .obj ms => if ingKeep ms then some (mkIngRec ms) else none
    | _ => none

theorem ingLoop_eq (ings : List Json) (h : ∀ i ∈ ings, isObjJ i = true) :
    ingLoop ings = some (ingRecsOf ings) := by
  induction ings with
  | nil => rfl
  | cons i t ih =>
    have hi := h i (List.mem_cons_self ..)
    have ht := ih fun x hx => h x (List.mem_cons_of_mem _ hx)
    cases i with
    | obj ms =>
      cases hk : ingKeep ms <;>
        simp [ingLoop, hk, ht, ingRecsOf, List.filterMap_cons]
    | null => simp [isObjJ] at hi
    | bool b => simp [isObjJ] at hi
    | num n => simp [isObjJ] at hi
    | str s => simp [isObjJ] at hi
    | arr xs => simp [isObjJ] at hi

theorem validateIngredientData_eq (ings : List Json) (tv cv : Json)
    (h : ∀ i ∈ ings, isObjJ i = true) :
    validateIngredientData (.obj [(kIngredients, .arr ings), (kTotalItems, tv), (kDetConf, cv)])
      = some ⟨ingRecsOf ings, cv, (ingRecsOf ings).length⟩ := by
  show (ingLoop ings).map _ = _
  rw [ingLoop_eq ings h]
  rfl

theorem ingRecs_length_split (ings : List Json) (h : ∀ i ∈ ings, isObjJ i = true) :
    (ingRecsOf ings).length + (ings.filter fun i => !ingKeepJ i).length = ings.length := by
  induction ings with
  | nil => rfl
  | cons i t ih =>
    have hi := h i (List.mem_cons_self ..)
    have ht := ih fun x hx => h x (List.mem_cons_of_mem _ hx)
    cases i with
    | obj ms =>
      cases hk : ingKeep ms <;>
        (simp [ingRecsOf, List.filterMap_cons, List.filter_cons, ingKeepJ, hk] at ht ⊢
         try omega)
    | null => simp [isObjJ] at hi
    | bool b => simp [isObjJ] at hi
    | num n => simp [isObjJ] at hi
    | str s => simp [isObjJ] at hi
    | arr xs => simp [isObjJ] at hi

theorem fmtAll_isSome :
    ∀ l : List Json, (∀ x ∈ l, (fmtRecipe x).isSome = true) →
      ∃ ys, fmtAll l = some ys ∧ ys.length = l.length := by
  intro l
  induction l with
  | nil => exact fun _ => ⟨[], rfl, rfl⟩
  | cons x t ih =>
    intro h
    obtain ⟨y, hy⟩ := Option.isSome_iff_exists.mp (h x (List.mem_cons_self ..))
    obtain ⟨ys, hys, hlen⟩ := ih fun z hz => h z (List.mem_cons_of_mem _ hz)
    exact ⟨y :: ys, by simp [fmtAll, hy, hys], by simp [hlen]⟩

theorem ingRecs_quantity (ings : List Json) (h : ∀ i ∈ ings, isObjJ i = true) :
    (ingRecsOf ings).map IngRec.quantity
      = (ings.filter ingKeepJ).map fun i =>
          match i with
          | .obj ms => pyStr (getKeyD ms kEstQ (.str []))
          | _ => [] := by
  induction ings with
  | nil => rfl
  | cons i t ih =>
    have hi := h i (List.mem_cons_self ..)
    have ht := ih fun x hx => h x (List.mem_cons_of_mem _ hx)
    cases i with
    | obj ms =>
      simp only [ingRecsOf] at ht
      have hkJ : ingKeepJ (.obj ms) = ingKeep ms := rfl
      have hq : (mkIngRec ms).quantity = pyStr (getKeyD ms kEstQ (.str [])) := rfl
      cases hk : ingKeep ms <;>
        simp [ingRecsOf, List.filterMap_cons, List.filter_cons, hkJ, hk, ht, hq]
    | null => simp [isObjJ] at hi
    | bool b => simp [isObjJ] at hi
    | num n => simp [isObjJ] at hi
    | str s => simp [isObjJ] at hi
    | arr xs => simp [isObjJ] at hi

/-! ### Well-bracketed text

The truncation-recovery proof needs structural facts about serialized
JSON text: a grammar `Chunk` of well-bracketed character sequences
(string literals with escapes, balanced square brackets and braces,
plain characters), together with a quote-and-escape-aware brace counter.
Serialized values are chunks, everything the parser consumes is a chunk,
every chunk is brace-balanced, and no prefix of a chunk closes more
braces than it opens — which is what makes `json.loads` fail on every
truncation of a serialized document and makes the bracket scanner stop
exactly at the matching `]`. -/

/-- Characters with structural meaning outside strings. -/
def specialC (c : Char) : Bool :=
  c == '"' || c == '\\' || c == '[' || c == ']' || c == obC || c == cbC

/-- Body of a string literal after the opening quote: escape pairs and
    plain characters, ending at the closing quote (included). -/
inductive StrBody : List Char → Prop where
  | close : StrBody ['"']
  | esc (e : Char) {r : List Char} : StrBody r → StrBody ('\\' :: e :: r)
  | chr {c : Char} {r : List Char} :
      c ≠ '"' → c ≠ '\\' → StrBody r → StrBody (c :: r)

/-- Well-bracketed text: plain characters, whole string literals, and
    balanced bracket and brace pairs. -/
inductive Chunk : List Char → Prop where
  | nil : Chunk []
  | plain {c : Char} {cs : List Char} :
      specialC c = false → Chunk cs → Chunk (c :: cs)
  | lit {b cs : List Char} : StrBody b → Chunk cs → Chunk ('"' :: (b ++ cs))
  | sqr {inner cs : List Char} :
      Chunk inner → Chunk cs → Chunk ('[' :: (inner ++ ']' :: cs))
  | brc {inner cs : List Char} :
      Chunk inner → Chunk cs → Chunk (obC :: (inner ++ cbC :: cs))

theorem chunk_append {a b : List Char} (ha : Chunk a) (hb : Chunk b) :
    Chunk (a ++ b) := by
  induction ha with
  | nil => exact hb
  | plain hc _ ih => exact Chunk.plain hc ih
  | lit hs _ ih =>
    rw [List.cons_append, List.append_assoc]
    exact Chunk.lit hs ih
  | sqr _ _ _ ih2 =>
    rw [List.cons_append, List.append_assoc, List.cons_append]
    exact Chunk.sqr (by assumption) ih2
  | brc _ _ _ ih2 =>
    rw [List.cons_append, List.append_assoc, List.cons_append]
    exact Chunk.brc (by assumption) ih2

theorem chunk_of_plain {l : List Char} (h : ∀ c ∈ l, specialC c = false) : Chunk l := by
  induction l with
  | nil => exact Chunk.nil
  | cons c t ih =>
    exact Chunk.plain (h c (List.mem_cons_self ..))
      (ih fun x hx => h x (List.mem_cons_of_mem _ hx))

theorem strBody_of_plain {s : List Char} (h : ∀ c ∈ s, c ≠ '"' ∧ c ≠ '\\') :
    StrBody (s ++ ['"']) := by
  induction s with
  | nil => exact StrBody.close
  | cons c t ih =>
    exact StrBody.chr (h c (List.mem_cons_self ..)).1 (h c (List.mem_cons_self ..)).2
      (ih fun x hx => h x (List.mem_cons_of_mem _ hx))

theorem chunk_lit_nil {b : List Char} (hb : StrBody b) : Chunk ('"' :: b) := by
  have := Chunk.lit hb Chunk.nil
  rwa [List.append_nil] at this

/-- State of the brace counter: inside a string, escape pending, and the
    running brace depth. -/
structure BSt where
  inStr : Bool
  esc : Bool
  dep : Int

/-- One step of the quote-and-escape-aware brace counter. -/
def braceStep (st : BSt) (c : Char) : BSt :=
  if st.esc then ⟨st.inStr, false, st.dep⟩
  else if c = '\\' then ⟨st.inStr, true, st.dep⟩
  else if c = '"' then ⟨!st.inStr, false, st.dep⟩
  else if st.inStr then st
  else if c = obC then ⟨st.inStr, false, st.dep + 1⟩
  else if c = cbC then ⟨st.inStr, false, st.dep - 1⟩
  else st

/-- Run the brace counter over a character list. -/
def braceRun (st : BSt) : List Char → BSt
  | [] => st
  | c :: cs => braceRun (braceStep st c) cs

theorem braceRun_append (a : List Char) :
    ∀ (st : BSt) (b : List Char), braceRun st (a ++ b) = braceRun (braceRun st a) b := by
  induction a with
  | nil => intro st b; rfl
  | cons c t ih => intro st b; simpa [braceRun] using ih (braceStep st c) b

/-- Depth translation: the counter never reads the depth, so shifting the
    start depth shifts the whole run. -/
theorem braceRun_shift (l : List Char) :
    ∀ (i e : Bool) (d : Int),
      braceRun ⟨i, e, d⟩ l
        = ⟨(braceRun ⟨i, e, 0⟩ l).inStr, (braceRun ⟨i, e, 0⟩ l).esc,
           d + (braceRun ⟨i, e, 0⟩ l).dep⟩ := by
  induction l with
  | nil => intro i e d; simp [braceRun]
  | cons c t ih =>
    intro i e d
    have hst : ∀ i' e' d0,
        braceStep ⟨i, e, d⟩ c = ⟨i', e', d + d0⟩ → braceStep ⟨i, e, 0⟩ c = ⟨i', e', d0⟩ := by
      intro i' e' d0
      simp only [braceStep]
      split <;> [skip; split <;> [skip; split <;> [skip; split <;> [skip;
        split <;> [skip; split]]]]] <;>
        (intro h
         simp only [BSt.mk.injEq] at h ⊢
         refine ⟨h.1, h.2.1, ?_⟩
         omega)
    rcases hbs : braceStep ⟨i, e, d⟩ c with ⟨i', e', dd⟩
    have hshape : braceStep ⟨i, e, 0⟩ c = ⟨i', e', dd - d⟩ :=
      hst i' e' (dd - d) (by rw [hbs]; simp only [BSt.mk.injEq]
                             exact ⟨trivial, trivial, by omega⟩)
    have h0 : braceRun ⟨i, e, 0⟩ (c :: t) = braceRun ⟨i', e', dd - d⟩ t := by
      show braceRun (braceStep ⟨i, e, 0⟩ c) t = _
      rw [hshape]
    show braceRun (braceStep ⟨i, e, d⟩ c) t = _
    rw [hbs, h0, ih i' e' dd, ih i' e' (dd - d)]
    simp only [BSt.mk.injEq]
    exact ⟨trivial, trivial, by omega⟩

theorem strBody_run {b : List Char} (hb : StrBody b) :
    ∀ d : Int, braceRun ⟨true, false, d⟩ b = ⟨false, false, d⟩ := by
  induction hb with
  | close => intro d; simp [braceRun, braceStep, obC, cbC]
  | esc e _ ih =>
    intro d
    show braceRun (braceStep _ '\\') _ = _
    rw [show braceStep ⟨true, false, d⟩ '\\' = ⟨true, true, d⟩ from by
      simp [braceStep]]
    show braceRun (braceStep _ e) _ = _
    rw [show braceStep ⟨true, true, d⟩ e = ⟨true, false, d⟩ from by
      simp [braceStep]]
    exact ih d
  | chr hq hbsl _ ih =>
    intro d
    show braceRun (braceStep _ _) _ = _
    rw [show braceStep ⟨true, false, d⟩ _ = ⟨true, false, d⟩ from by
      simp [braceStep, hq, hbsl]]
    exact ih d

theorem strBody_run_pre {b : List Char} (hb : StrBody b) :
    ∀ (d : Int) (p q : List Char), b = p ++ q →
      (braceRun ⟨true, false, d⟩ p).dep = d := by
  induction hb with
  | close =>
    intro d p q hpq
    cases p with
    | nil => rfl
    | cons x xs =>
      simp only [List.cons_append, List.cons.injEq] at hpq
      obtain ⟨hx, hrest⟩ := hpq
      subst hx
      have hxs : xs = [] := by
        cases xs with
        | nil => rfl
        | cons a b => simp at hrest
      subst hxs
      simp [braceRun, braceStep]
  | esc e _ ih =>
    intro d p q hpq
    cases p with
    | nil => rfl
    | cons x p' =>
      simp only [List.cons_append, List.cons.injEq] at hpq
      obtain ⟨hx, hrest⟩ := hpq
      subst hx
      cases p' with
      | nil => simp [braceRun, braceStep]
      | cons y p'' =>
        simp only [List.cons_append, List.cons.injEq] at hrest
        obtain ⟨hy, hr⟩ := hrest
        subst hy
        show (braceRun (braceStep (braceStep ⟨true, false, d⟩ '\\') e) p'').dep = d
        rw [show braceStep ⟨true, false, d⟩ '\\' = ⟨true, true, d⟩ from by simp [braceStep],
            show braceStep ⟨true, true, d⟩ e = ⟨true, false, d⟩ from by simp [braceStep]]
        exact ih d p'' q hr
  | chr hq hbsl _ ih =>
    intro d p q hpq
    cases p with
    | nil => rfl
    | cons x p' =>
      simp only [List.cons_append, List.cons.injEq] at hpq
      obtain ⟨hx, hrest⟩ := hpq
      subst hx
      show (braceRun (braceStep ⟨true, false, d⟩ _) p').dep = d
      rw [show braceStep ⟨true, false, d⟩ _ = ⟨true, false, d⟩ from by
        simp [braceStep, hq, hbsl]]
      exact ih d p' q hrest

theorem chunk_run {c : List Char} (hc : Chunk c) :
    ∀ d : Int, braceRun ⟨false, false, d⟩ c = ⟨false, false, d⟩ := by
  induction hc with
  | nil => intro d; rfl
  | plain hsp _ ih =>
    intro d
    show braceRun (braceStep _ _) _ = _
    rw [show braceStep ⟨false, false, d⟩ _ = ⟨false, false, d⟩ from by
      simp only [specialC, Bool.or_eq_false_iff, beq_eq_false_iff_ne] at hsp
      simp [braceStep, hsp.1.1.1.1.1, hsp.1.1.1.1.2, hsp.2, hsp.1.2]]
    exact ih d
  | lit hs _ ih =>
    intro d
    show braceRun (braceStep _ '"') _ = _
    rw [show braceStep ⟨false, false, d⟩ '"' = ⟨true, false, d⟩ from by simp [braceStep],
        braceRun_append, strBody_run hs d]
    exact ih d
  | sqr _ _ ih1 ih2 =>
    intro d
    show braceRun (braceStep _ '[') _ = _
    rw [show braceStep ⟨false, false, d⟩ '[' = ⟨false, false, d⟩ from by
          simp [braceStep, obC, cbC],
        braceRun_append, ih1 d]
    show braceRun (braceStep _ ']') _ = _
    rw [show braceStep ⟨false, false, d⟩ ']' = ⟨false, false, d⟩ from by
      simp [braceStep, obC, cbC]]
    exact ih2 d
  | brc _ _ ih1 ih2 =>
    intro d
    show braceRun (braceStep _ obC) _ = _
    rw [show braceStep ⟨false, false, d⟩ obC = ⟨false, false, d + 1⟩ from by
          simp [braceStep, obC, cbC],
        braceRun_append, ih1 (d + 1)]
    show braceRun (braceStep _ cbC) _ = _
    rw [show braceStep ⟨false, false, d + 1⟩ cbC = ⟨false, false, d⟩ from by
      simp [braceStep, obC, cbC]]
    exact ih2 d

theorem braceStep_plain (d : Int) {c0 : Char} (h : specialC c0 = false) :
    braceStep ⟨false, false, d⟩ c0 = ⟨false, false, d⟩ := by
  simp only [specialC, Bool.or_eq_false_iff, beq_eq_false_iff_ne] at h
  simp [braceStep, h.1.1.1.1.1, h.1.1.1.1.2, h.1.2, h.2]

theorem braceStep_sq (d : Int) : braceStep ⟨false, false, d⟩ '[' = ⟨false, false, d⟩ := by
  simp [braceStep, obC, cbC]

theorem braceStep_sqc (d : Int) : braceStep ⟨false, false, d⟩ ']' = ⟨false, false, d⟩ := by
  simp [braceStep, obC, cbC]

theorem braceStep_quote (d : Int) : braceStep ⟨false, false, d⟩ '"' = ⟨true, false, d⟩ := by
  simp [braceStep]

theorem braceStep_ob (d : Int) : braceStep ⟨false, false, d⟩ obC = ⟨false, false, d + 1⟩ := by
  simp [braceStep, obC, cbC]

theorem braceStep_cb (d : Int) : braceStep ⟨false, false, d⟩ cbC = ⟨false, false, d - 1⟩ := by
  simp [braceStep, obC, cbC]

/-- No prefix of well-bracketed text drives the brace depth below its
    start. -/
theorem chunk_run_pre {c : List Char} (hc : Chunk c) :
    ∀ d : Int, 0 ≤ d → ∀ p q, c = p ++ q → 0 ≤ (braceRun ⟨false, false, d⟩ p).dep := by
  induction hc with
  | nil =>
    intro d hd p q hpq
    have hp : p = [] := (List.append_eq_nil.mp hpq.symm).1
    subst hp
    exact hd
  | plain hsp _ ih =>
    intro d hd p q hpq
    cases p with
    | nil => exact hd
    | cons x p' =>
      simp only [List.cons_append, List.cons.injEq] at hpq
      obtain ⟨hx, hrest⟩ := hpq
      subst hx
      show 0 ≤ (braceRun (braceStep ⟨false, false, d⟩ _) p').dep
      rw [braceStep_plain d hsp]
      exact ih d hd p' q hrest
  | lit hs _ ih =>
    intro d hd p q hpq
    cases p with
    | nil => exact hd
    | cons x p' =>
      simp only [List.cons_append, List.cons.injEq] at hpq
      obtain ⟨hx, hrest⟩ := hpq
      subst hx
      show 0 ≤ (braceRun (braceStep ⟨false, false, d⟩ '"') p').dep
      rw [braceStep_quote d]
      rcases List.append_eq_append_iff.mp hrest with ⟨w, hw1, hw2⟩ | ⟨w, hw1, hw2⟩
      · -- the string body is exhausted inside p'
        subst hw1
        rw [braceRun_append, strBody_run hs d]
        exact ih d hd w q hw2
      · -- p' stops inside the string body
        have := strBody_run_pre hs d p' w hw1
        omega
  | sqr hin _ ih1 ih2 =>
    intro d hd p q hpq
    cases p with
    | nil => exact hd
    | cons x p' =>
      simp only [List.cons_append, List.cons.injEq] at hpq
      obtain ⟨hx, hrest⟩ := hpq
      subst hx
      show 0 ≤ (braceRun (braceStep ⟨false, false, d⟩ '[') p').dep
      rw [braceStep_sq d]
      rcases List.append_eq_append_iff.mp hrest with ⟨w, hw1, hw2⟩ | ⟨w, hw1, hw2⟩
      · -- p' runs past the whole inner part
        subst hw1
        rw [braceRun_append, chunk_run hin d]
        cases w with
        | nil => exact hd
        | cons y w' =>
          simp only [List.cons_append, List.cons.injEq] at hw2
          obtain ⟨hy, hw2'⟩ := hw2
          subst hy
          show 0 ≤ (braceRun (braceStep ⟨false, false, d⟩ ']') w').dep
          rw [braceStep_sqc d]
          exact ih2 d hd w' q hw2'
      · -- p' stops inside the inner part
        exact ih1 d hd p' w hw1
  | brc hin _ ih1 ih2 =>
    intro d hd p q hpq
    cases p with
    | nil => exact hd
    | cons x p' =>
      simp only [List.cons_append, List.cons.injEq] at hpq
      obtain ⟨hx, hrest⟩ := hpq
      subst hx
      show 0 ≤ (braceRun (braceStep ⟨false, false, d⟩ obC) p').dep
      rw [braceStep_ob d]
      rcases List.append_eq_append_iff.mp hrest with ⟨w, hw1, hw2⟩ | ⟨w, hw1, hw2⟩
      · subst hw1
        rw [braceRun_append, chunk_run hin (d + 1)]
        cases w with
        | nil =>
          show (0 : Int) ≤ d + 1
          omega
        | cons y w' =>
          simp only [List.cons_append, List.cons.injEq] at hw2
          obtain ⟨hy, hw2'⟩ := hw2
          subst hy
          show 0 ≤ (braceRun (braceStep ⟨false, false, d + 1⟩ cbC) w').dep
          rw [braceStep_cb (d + 1)]
          have : d + 1 - 1 = d := by omega
          rw [this]
          exact ih2 d hd w' q hw2'
      · exact ih1 (d + 1) (by omega) p' w hw1

theorem wsC_not_special {c : Char} (h : isWsC c = true) : specialC c = false := by
  simp only [isWsC, Bool.or_eq_true, beq_iff_eq] at h
  rcases h with h | h | h | h <;> subst h <;> decide

theorem digit_not_special {c : Char} (h : isDig c = true) : specialC c = false := by
  have hne : ∀ x : Char, isDig x = false → c ≠ x := fun x hx he => by
    subst he; rw [h] at hx; cases hx
  simp only [specialC, Bool.or_eq_false_iff, beq_eq_false_iff_ne]
  exact ⟨⟨⟨⟨⟨hne _ (by decide), hne _ (by decide)⟩, hne _ (by decide)⟩,
    hne _ (by decide)⟩, hne _ (by decide)⟩, hne _ (by decide)⟩

theorem dropWs_split : ∀ cs : List Char,
    ∃ w, cs = w ++ dropWs cs ∧ ∀ c ∈ w, isWsC c = true := by
  intro cs
  induction cs with
  | nil => exact ⟨[], rfl, by simp⟩
  | cons c t ih =>
    by_cases h : isWsC c = true
    · obtain ⟨w, hw, hws⟩ := ih
      refine ⟨c :: w, ?_, ?_⟩
      · rw [show dropWs (c :: t) = dropWs t from by simp [dropWs, h], List.cons_append]
        exact congrArg (c :: ·) hw
      · intro x hx
        rcases List.mem_cons.mp hx with hx | hx
        · subst hx; exact h
        · exact hws x hx
    · refine ⟨[], ?_, by simp⟩
      simp [dropWs, h]

theorem chunk_ws {w : List Char} (h : ∀ c ∈ w, isWsC c = true) : Chunk w :=
  chunk_of_plain fun c hc => wsC_not_special (h c hc)

theorem spanDig_split : ∀ cs : List Char,
    cs = (spanDig cs).1 ++ (spanDig cs).2 ∧ ∀ c ∈ (spanDig cs).1, isDig c = true := by
  intro cs
  induction cs with
  | nil => exact ⟨rfl, by simp [spanDig]⟩
  | cons c t ih =>
    by_cases h : isDig c = true
    · refine ⟨?_, ?_⟩
      · rw [show spanDig (c :: t) = (c :: (spanDig t).1, (spanDig t).2) from by
          simp [spanDig, h]]
        exact congrArg (c :: ·) ih.1
      · intro x hx
        rw [show spanDig (c :: t) = (c :: (spanDig t).1, (spanDig t).2) from by
          simp [spanDig, h]] at hx
        rcases List.mem_cons.mp hx with hx | hx
        · subst hx; exact h
        · exact ih.2 x hx
    · rw [show spanDig (c :: t) = ([], c :: t) from by simp [spanDig, h]]
      exact ⟨rfl, by simp⟩

theorem lexStr_body : ∀ xs s rest, lexStr xs = some (s, rest) →
    ∃ b, xs = b ++ rest ∧ StrBody b := by
  intro xs
  induction xs using lexStr.induct with
  | case1 => intro s rest h; cases h
  | case2 => intro s rest h; cases h
  | case3 e cs2 d hd ih =>
    intro s rest h
    simp only [lexStr, hd] at h
    obtain ⟨p, hp, hps⟩ := Option.map_eq_some'.mp h
    obtain ⟨b2, hb2, hsb2⟩ := ih p.1 p.2 (by rw [hp])
    have hrest : rest = p.2 := by
      have := congrArg Prod.snd hps
      simpa using this.symm
    subst hrest
    exact ⟨'\\' :: e :: b2, by rw [List.cons_append, List.cons_append, hb2],
      StrBody.esc e hsb2⟩
  | case4 e cs2 hd =>
    intro s rest h
    simp only [lexStr, hd] at h
    exact Option.noConfusion h
  | case5 cs _ _ =>
    intro s rest h
    rw [show lexStr ('"' :: cs) = some ([], cs) from rfl] at h
    simp only [Option.some.injEq, Prod.mk.injEq] at h
    obtain ⟨hs, hrest⟩ := h
    subst hrest
    exact ⟨['"'], rfl, StrBody.close⟩
  | case6 c cs hx1 hx2 hq ih =>
    intro s rest h
    have hbs : c ≠ '\\' := by
      intro he
      cases cs with
      | nil => exact hx1 he rfl
      | cons e cs2 => exact hx2 e cs2 he rfl
    rw [lexStr.eq_def] at h
    split at h
    · cases h
    · cases h
    · rename_i e cs2 heq
      injection heq with h1 _
      exact absurd h1 hbs
    · rename_i c' cs' heq
      injection heq with h1 h2
      subst h1; subst h2
      rw [if_neg hq] at h
      obtain ⟨p, hp, hps⟩ := Option.map_eq_some'.mp h
      obtain ⟨b2, hb2, hsb2⟩ := ih p.1 p.2 (by rw [hp])
      have hrest : rest = p.2 := by
        have := congrArg Prod.snd hps
        simpa using this.symm
      subst hrest
      exact ⟨c :: b2, by rw [List.cons_append, hb2], StrBody.chr hq hbs hsb2⟩

theorem lexInt_chunk : ∀ cs v rest, lexInt cs = some (v, rest) →
    ∃ c, cs = c ++ rest ∧ Chunk c := by
  intro cs v rest h
  rw [lexInt.eq_def] at h
  split at h
  · rename_i r
    dsimp only at h
    split at h
    · simp only [Option.some.injEq, Prod.mk.injEq] at h
      obtain ⟨_, hrest⟩ := h
      subst hrest
      obtain ⟨hsplit, hdig⟩ := spanDig_split r
      refine ⟨'-' :: (spanDig r).1, ?_, ?_⟩
      · rw [List.cons_append]
        exact congrArg ('-' :: ·) hsplit
      · exact Chunk.plain (by decide)
          (chunk_of_plain fun c hc => digit_not_special (hdig c hc))
    · cases h
  · dsimp only at h
    split at h
    · simp only [Option.some.injEq, Prod.mk.injEq] at h
      obtain ⟨_, hrest⟩ := h
      subst hrest
      obtain ⟨hsplit, hdig⟩ := spanDig_split cs
      exact ⟨(spanDig cs).1, hsplit,
        chunk_of_plain fun c hc => digit_not_special (hdig c hc)⟩
    · cases h

/-- Everything the parser consumes is well-bracketed text: one value, an
    element list up to its closing bracket, an entry list up to its
    closing brace. -/
theorem parseChunk : ∀ f : Nat,
    (∀ cs v rest, parseVal f cs = some (v, rest) → ∃ c, cs = c ++ rest ∧ Chunk c)
    ∧ (∀ cs vs rest, parseItems f cs = some (vs, rest) →
        ∃ c, cs = c ++ ']' :: rest ∧ Chunk c)
    ∧ (∀ cs ms rest, parseEntries f cs = some (ms, rest) →
        ∃ c, cs = c ++ cbC :: rest ∧ Chunk c) := by
  intro f
  induction f with
  | zero =>
    refine ⟨fun cs v rest h => ?_, fun cs vs rest h => ?_, fun cs ms rest h => ?_⟩
    · rw [parseVal] at h
      exact Option.noConfusion h
    · rw [parseItems] at h
      exact Option.noConfusion h
    · rw [parseEntries] at h
      exact Option.noConfusion h
  | succ f ih =>
    obtain ⟨ihV, ihI, ihE⟩ := ih
    refine ⟨?_, ?_, ?_⟩
    · -- parseVal
      intro cs v rest h
      obtain ⟨w, hw, hws⟩ := dropWs_split cs
      rw [parseVal] at h
      split at h
      · -- null
        rename_i r heq
        simp only [Option.some.injEq, Prod.mk.injEq] at h
        refine ⟨w ++ ['n', 'u', 'l', 'l'], ?_, ?_⟩
        · rw [hw, heq, ← h.2, List.append_assoc]
          rfl
        · exact chunk_append (chunk_ws hws) (chunk_of_plain (by decide))
      · -- true
        rename_i r heq
        simp only [Option.some.injEq, Prod.mk.injEq] at h
        refine ⟨w ++ ['t', 'r', 'u', 'e'], ?_, ?_⟩
        · rw [hw, heq, ← h.2, List.append_assoc]
          rfl
        · exact chunk_append (chunk_ws hws) (chunk_of_plain (by decide))
      · -- false
        rename_i r heq
        simp only [Option.some.injEq, Prod.mk.injEq] at h
        refine ⟨w ++ ['f', 'a', 'l', 's', 'e'], ?_, ?_⟩
        · rw [hw, heq, ← h.2, List.append_assoc]
          rfl
        · exact chunk_append (chunk_ws hws) (chunk_of_plain (by decide))
      · -- string
        rename_i r heq
        obtain ⟨p, hp, hps⟩ := Option.map_eq_some'.mp h
        obtain ⟨b, hb, hsb⟩ := lexStr_body r p.1 p.2 hp
        have hrest : rest = p.2 := by
          have := congrArg Prod.snd hps
          simpa using this.symm
        subst hrest
        refine ⟨w ++ '"' :: b, ?_, ?_⟩
        · rw [hw, heq, hb, List.append_assoc]
          rfl
        · exact chunk_append (chunk_ws hws) (chunk_lit_nil hsb)
      · -- array
        rename_i r heq
        obtain ⟨w2, hw2, hws2⟩ := dropWs_split r
        split at h
        · -- empty array
          rename_i r2 heq2
          simp only [Option.some.injEq, Prod.mk.injEq] at h
          refine ⟨w ++ '[' :: (w2 ++ [']']), ?_, ?_⟩
          · rw [hw, heq, ← h.2, hw2, heq2]
            simp [List.append_assoc]
          · exact chunk_append (chunk_ws hws)
              (Chunk.sqr (chunk_ws hws2) Chunk.nil)
        · -- nonempty array through parseItems
          obtain ⟨p, hp, hps⟩ := Option.map_eq_some'.mp h
          obtain ⟨ci, hci, hcic⟩ := ihI (dropWs r) p.1 p.2 hp
          have hrest : rest = p.2 := by
            have := congrArg Prod.snd hps
            simpa using this.symm
          subst hrest
          refine ⟨w ++ '[' :: ((w2 ++ ci) ++ [']']), ?_, ?_⟩
          · rw [hw, heq, hw2, hci]
            simp [List.append_assoc]
          · exact chunk_append (chunk_ws hws)
              (Chunk.sqr (chunk_append (chunk_ws hws2) hcic) Chunk.nil)
      · -- default: object, number, or failure
        rename_i c0 r e1 e2 e3 e4 e5 heq
        split at h
        · -- object
          rename_i hob
          subst hob
          obtain ⟨w2, hw2, hws2⟩ := dropWs_split r
          split at h
          · rename_i c2 r2 heq2
            split at h
            · -- empty object
              rename_i hcb
              subst hcb
              simp only [Option.some.injEq, Prod.mk.injEq] at h
              refine ⟨w ++ obC :: (w2 ++ [cbC]), ?_, ?_⟩
              · rw [hw, heq, ← h.2, hw2, heq2]
                simp [List.append_assoc]
              · exact chunk_append (chunk_ws hws)
                  (Chunk.brc (chunk_ws hws2) Chunk.nil)
            · -- nonempty object through parseEntries
              obtain ⟨p, hp, hps⟩ := Option.map_eq_some'.mp h
              obtain ⟨ce, hce, hcec⟩ := ihE (c2 :: r2) p.1 p.2 hp
              have hrest : rest = p.2 := by
                have := congrArg Prod.snd hps
                simpa using this.symm
              subst hrest
              refine ⟨w ++ obC :: ((w2 ++ ce) ++ [cbC]), ?_, ?_⟩
              · rw [hw, heq, hw2, heq2, hce]
                simp [List.append_assoc]
              · exact chunk_append (chunk_ws hws)
                  (Chunk.brc (chunk_append (chunk_ws hws2) hcec) Chunk.nil)
          · exact Option.noConfusion h
        · -- number
          split at h
          · obtain ⟨cn, hcn, hcnc⟩ := lexInt_chunk (c0 :: r) v rest h
            refine ⟨w ++ cn, ?_, ?_⟩
            · rw [hw, heq, hcn, List.append_assoc]
            · exact chunk_append (chunk_ws hws) hcnc
          · exact Option.noConfusion h
      · exact Option.noConfusion h
    · -- parseItems
      intro cs vs rest h
      rw [parseItems] at h
      split at h
      · exact Option.noConfusion h
      · rename_i v0 r0 heq
        obtain ⟨cv, hcv, hcvc⟩ := ihV cs v0 r0 heq
        obtain ⟨w2, hw2, hws2⟩ := dropWs_split r0
        split at h
        · -- comma, recurse
          rename_i r2 heq2
          obtain ⟨p, hp, hps⟩ := Option.map_eq_some'.mp h
          obtain ⟨ci, hci, hcic⟩ := ihI r2 p.1 p.2 hp
          have hrest : rest = p.2 := by
            have := congrArg Prod.snd hps
            simpa using this.symm
          subst hrest
          refine ⟨cv ++ (w2 ++ ',' :: ci), ?_, ?_⟩
          · rw [hcv, hw2, heq2, hci]
            simp [List.append_assoc]
          · exact chunk_append hcvc
              (chunk_append (chunk_ws hws2) (Chunk.plain (by decide) hcic))
        · -- closing bracket
          rename_i r2 heq2
          simp only [Option.some.injEq, Prod.mk.injEq] at h
          refine ⟨cv ++ w2, ?_, ?_⟩
          · rw [hcv, hw2, heq2, ← h.2]
            simp [List.append_assoc]
          · exact chunk_append hcvc (chunk_ws hws2)
        · exact Option.noConfusion h
    · -- parseEntries
      intro cs ms rest h
      obtain ⟨w, hw, hws⟩ := dropWs_split cs
      rw [parseEntries] at h
      split at h
      · rename_i r heq
        split at h
        · exact Option.noConfusion h
        · rename_i k r1 heqk
          obtain ⟨bk, hbk, hbks⟩ := lexStr_body r k r1 heqk
          obtain ⟨w2, hw2, hws2⟩ := dropWs_split r1
          split at h
          · rename_i r2 heq2
            split at h
            · exact Option.noConfusion h
            · rename_i v0 r3 heqv
              obtain ⟨cv, hcv, hcvc⟩ := ihV r2 v0 r3 heqv
              obtain ⟨w4, hw4, hws4⟩ := dropWs_split r3
              split at h
              · -- comma, recurse
                rename_i r4 heq4
                obtain ⟨p, hp, hps⟩ := Option.map_eq_some'.mp h
                obtain ⟨ce, hce, hcec⟩ := ihE r4 p.1 p.2 hp
                have hrest : rest = p.2 := by
                  have := congrArg Prod.snd hps
                  simpa using this.symm
                subst hrest
                refine ⟨w ++ (('"' :: bk) ++ (w2 ++ ':' :: (cv ++ (w4 ++ ',' :: ce)))), ?_, ?_⟩
                · rw [hw, heq, hbk, hw2, heq2, hcv, hw4, heq4, hce]
                  simp [List.append_assoc]
                · refine chunk_append (chunk_ws hws) ?_
                  refine chunk_append (chunk_lit_nil hbks) ?_
                  refine chunk_append (chunk_ws hws2) ?_
                  refine Chunk.plain (by decide) ?_
                  refine chunk_append hcvc ?_
                  exact chunk_append (chunk_ws hws4) (Chunk.plain (by decide) hcec)
              · -- closing brace
                rename_i c4 r4 hne4 heq4
                split at h
                · rename_i hcb
                  subst hcb
                  simp only [Option.some.injEq, Prod.mk.injEq] at h
                  refine ⟨w ++ (('"' :: bk) ++ (w2 ++ ':' :: (cv ++ w4))), ?_, ?_⟩
                  · rw [hw, heq, hbk, hw2, heq2, hcv, hw4, heq4, ← h.2]
                    simp [List.append_assoc]
                  · refine chunk_append (chunk_ws hws) ?_
                    refine chunk_append (chunk_lit_nil hbks) ?_
                    refine chunk_append (chunk_ws hws2) ?_
                    refine Chunk.plain (by decide) ?_
                    exact chunk_append hcvc (chunk_ws hws4)
                · exact Option.noConfusion h
              · exact Option.noConfusion h
          · exact Option.noConfusion h
      · exact Option.noConfusion h

/-! ### Serializer-side facts

The serializer's output is well-bracketed text, and the parser maps it
back to the value it came from. -/

/-- Whitespace prefixes are transparent to `dropWs`. -/
theorem dropWs_ws_append {p : List Char} (x : List Char)
    (h : ∀ c ∈ p, isWsC c = true) : dropWs (p ++ x) = dropWs x := by
  induction p with
  | nil => rfl
  | cons c t ih =>
    have hc : isWsC c = true := h c (List.mem_cons_self c t)
    rw [List.cons_append]
    show dropWs (c :: (t ++ x)) = dropWs x
    rw [show dropWs (c :: (t ++ x)) = dropWs (t ++ x) from by simp [dropWs, hc]]
    exact ih fun d hd => h d (List.mem_cons_of_mem c hd)

/-- `dropWs` keeps a list whose head is not whitespace. -/
theorem dropWs_cons_notWs {c : Char} (x : List Char) (h : isWsC c = false) :
    dropWs (c :: x) = c :: x := by
  simp [dropWs, h]

/-- A list that `dropWs` empties is all whitespace. -/
theorem dropWs_nil_ws : ∀ r : List Char, dropWs r = [] → ∀ c ∈ r, isWsC c = true := by
  intro r
  induction r with
  | nil => intro _ c hc; cases hc
  | cons c t ih =>
    intro h d hd
    by_cases hc : isWsC c = true
    · rw [show dropWs (c :: t) = dropWs t from by simp [dropWs, hc]] at h
      rcases List.mem_cons.mp hd with rfl | hd
      · exact hc
      · exact ih h d hd
    · have hc' : isWsC c = false := Bool.eq_false_iff.mpr hc
      rw [show dropWs (c :: t) = c :: t from by simp [dropWs, hc']] at h
      cases h

/-- Digits are not JSON whitespace. -/
theorem digit_not_ws {c : Char} (h : isDig c = true) : isWsC c = false := by
  cases hw : isWsC c
  · rfl
  · exfalso
    simp only [isWsC, Bool.or_eq_true, beq_iff_eq] at hw
    rcases hw with rfl | rfl | rfl | rfl <;> exact absurd h (by decide)

/-- Every `digCh` output is a digit character. -/
theorem digCh_isDig : ∀ n : Nat, isDig (digCh n) = true
  | 0 | 1 | 2 | 3 | 4 | 5 | 6 | 7 | 8 => by decide
  | n + 9 => by rw [show digCh (n + 9) = '9' from rfl]; decide

/-- `digCh` inverts to its argument below ten. -/
theorem digCh_val {n : Nat} (h : n < 10) : (digCh n).toNat - 48 = n := by
  interval_cases n <;> decide

/-- `digCh` of a number in `1..9` is not the zero digit. -/
theorem digCh_ne_zero {n : Nat} (h1 : 1 ≤ n) (h2 : n < 10) : digCh n ≠ '0' := by
  interval_cases n <;> decide

/-- A digit run with a nonzero head is acceptable. -/
theorem digRunOk_cons {c : Char} (t : List Char) (h : c ≠ '0') :
    digRunOk (c :: t) = true := by
  rw [digRunOk.eq_def]
  split
  · rename_i heq
    cases heq
  · rename_i heq
    simp only [List.cons.injEq] at heq
    exact absurd heq.1 h
  · rename_i heq
    simp only [List.cons.injEq] at heq
    exact absurd heq.1 h
  · rfl

/-- A single digit character is an acceptable run. -/
theorem digRunOk_single (c : Char) : digRunOk [c] = true := by
  by_cases h : c = '0'
  · subst h; rfl
  · exact digRunOk_cons [] h

/-- `digValue` of a run extended by one digit. -/
theorem digValue_append (ds : List Char) (c : Char) :
    digValue (ds ++ [c]) = digValue ds * 10 + (c.toNat - 48) := by
  simp [digValue, List.foldl_append]

/-- Every character `natCharsF` emits is a digit. -/
theorem natCharsF_digits : ∀ f n : Nat, ∀ c ∈ natCharsF f n, isDig c = true := by
  intro f
  induction f with
  | zero => intro n c hc; cases hc
  | succ f ih =>
    intro n c hc
    rw [natCharsF] at hc
    by_cases hn : n < 10
    · rw [if_pos hn] at hc
      rcases List.mem_singleton.mp hc with rfl
      exact digCh_isDig n
    · rw [if_neg hn] at hc
      rcases List.mem_append.mp hc with hc | hc
      · exact ih (n / 10) c hc
      · rcases List.mem_singleton.mp hc with rfl
        exact digCh_isDig (n % 10)

/-- With enough fuel, the digit string of `n` reads back as `n`, is
    nonempty, and is an acceptable numeral even when digits follow. -/
theorem natCharsF_main : ∀ f n : Nat, n < f →
    digValue (natCharsF f n) = n ∧ natCharsF f n ≠ []
    ∧ (1 ≤ n → ∀ t, digRunOk (natCharsF f n ++ t) = true)
    ∧ digRunOk (natCharsF f n) = true := by
  intro f
  induction f with
  | zero => intro n h; omega
  | succ f ih =>
    intro n h
    rw [natCharsF]
    by_cases hn : n < 10
    · rw [if_pos hn]
      refine ⟨?_, by simp, ?_, digRunOk_single _⟩
      · show digValue [digCh n] = n
        have hv := digCh_val hn
        simp [digValue]
        omega
      · intro h1 t
        exact digRunOk_cons t (digCh_ne_zero h1 hn)
    · rw [if_neg hn]
      have hdiv : n / 10 < f := by
        have := Nat.div_lt_self (show 0 < n by omega) (show 1 < 10 by omega)
        omega
      obtain ⟨ihv, ihne, ihok, -⟩ := ih (n / 10) hdiv
      have hmod : n % 10 < 10 := Nat.mod_lt _ (by omega)
      have hvc := digCh_val hmod
      have hok1 : ∀ t, digRunOk ((natCharsF f (n / 10) ++ [digCh (n % 10)]) ++ t) = true := by
        intro t
        rw [List.append_assoc]
        exact ihok (by omega) ([digCh (n % 10)] ++ t)
      refine ⟨?_, by simp, fun _ t => hok1 t, ?_⟩
      · rw [digValue_append, ihv, hvc]
        omega
      · have := ihok (by omega) [digCh (n % 10)]
        exact this

/-- The digit string of `n` reads back as `n`. -/
theorem natChars_val (n : Nat) : digValue (natChars n) = n :=
  (natCharsF_main (n + 1) n (by omega)).1

/-- The digit string is never empty. -/
theorem natChars_ne_nil (n : Nat) : natChars n ≠ [] :=
  (natCharsF_main (n + 1) n (by omega)).2.1

/-- The digit string has no leading zero. -/
theorem natChars_ok (n : Nat) : digRunOk (natChars n) = true :=
  (natCharsF_main (n + 1) n (by omega)).2.2.2

/-- The digit string holds only digits. -/
theorem natChars_digits (n : Nat) : ∀ c ∈ natChars n, isDig c = true :=
  natCharsF_digits (n + 1) n

/-- Text whose head is not a digit (what may legally follow a serialized
    numeral). -/
def noDigHead : List Char → Prop
  | [] => True
  | c :: _ => isDig c = false

/-- `spanDig` splits a digit run from a non-digit continuation. -/
theorem spanDig_app : ∀ ds rest : List Char, (∀ c ∈ ds, isDig c = true) →
    noDigHead rest → spanDig (ds ++ rest) = (ds, rest) := by
  intro ds
  induction ds with
  | nil =>
    intro rest _ hr
    cases rest with
    | nil => rfl
    | cons c r =>
      have hr' : isDig c = false := hr
      simp [spanDig, hr']
  | cons d ds' ih =>
    intro rest hd hr
    have hdd : isDig d = true := hd d (List.mem_cons_self d ds')
    rw [List.cons_append]
    simp [spanDig, hdd, ih rest (fun c hc => hd c (List.mem_cons_of_mem d hc)) hr]

/-- `lexInt` on a digit string followed by non-digit text. -/
theorem lexInt_digits {cs rest : List Char} {m : Nat}
    (hcs : cs = natChars m ++ rest) (hr : noDigHead rest) :
    lexInt cs = some (.num (m : Int), rest) := by
  obtain ⟨c, w, hc⟩ : ∃ c w, natChars m = c :: w := by
    cases hnc : natChars m with
    | nil => exact absurd hnc (natChars_ne_nil m)
    | cons a b => exact ⟨a, b, rfl⟩
  have hcd : isDig c = true := natChars_digits m c (by rw [hc]; exact List.mem_cons_self c w)
  subst hcs
  rw [lexInt.eq_def]
  split
  · rename_i r heq
    rw [hc, List.cons_append] at heq
    simp only [List.cons.injEq] at heq
    rw [heq.1] at hcd
    exact absurd hcd (by decide)
  · have hsp := spanDig_app (natChars m) rest (natChars_digits m) hr
    rw [hsp]
    simp [natChars_ok m, natChars_val m]

/-- `lexInt` reads a serialized integer back, given a non-digit
    continuation. -/
theorem lexInt_ser (i : Int) (rest : List Char) (h : noDigHead rest) :
    lexInt (intChars i ++ rest) = some (.num i, rest) := by
  rw [intChars]
  by_cases hi : i < 0
  · rw [if_pos hi, List.cons_append]
    show lexInt ('-' :: (natChars i.natAbs ++ rest)) = _
    rw [lexInt.eq_def]
    split
    · rename_i r heq
      simp only [List.cons.injEq] at heq
      rw [← heq.2]
      have hsp := spanDig_app (natChars i.natAbs) rest (natChars_digits _) h
      rw [hsp]
      simp [natChars_ok, natChars_val]
      rw [abs_of_neg hi]
      omega
    · rename_i hne
      exact absurd rfl (hne (natChars i.natAbs ++ rest))
  · rw [if_neg hi]
    rw [lexInt_digits rfl h]
    simp
    omega

/-- Head shape of a serialized integer: a minus sign or a digit. -/
theorem intChars_shape (i : Int) :
    ∃ c w, intChars i = c :: w ∧ (c = '-' ∨ isDig c = true) := by
  by_cases hi : i < 0
  · exact ⟨'-', natChars i.natAbs, by simp [intChars, hi], Or.inl rfl⟩
  · obtain ⟨c, w, hc⟩ : ∃ c w, natChars i.natAbs = c :: w := by
      cases hnc : natChars i.natAbs with
      | nil => exact absurd hnc (natChars_ne_nil _)
      | cons a b => exact ⟨a, b, rfl⟩
    refine ⟨c, w, by simp [intChars, hi, hc], Or.inr ?_⟩
    exact natChars_digits _ c (by rw [hc]; exact List.mem_cons_self c w)

/-- The serialized body of any string, closing quote included, is a
    well-formed string-literal body. -/
theorem strBody_escL : ∀ s : List Char, StrBody (escL s ++ ['"']) := by
  intro s
  induction s with
  | nil => exact StrBody.close
  | cons c s' ih =>
    show StrBody ((escC c ++ escL s') ++ ['"'])
    rw [escC]
    by_cases hc : c = '"' ∨ c = '\\'
    · rw [if_pos hc]
      show StrBody ('\\' :: c :: (escL s' ++ ['"']))
      exact StrBody.esc c ih
    · rw [if_neg hc]
      push_neg at hc
      show StrBody (c :: (escL s' ++ ['"']))
      exact StrBody.chr hc.1 hc.2 ih

/-- String lexing steps over an unescaped plain character. -/
theorem lexStr_plain {c : Char} (cs : List Char) (h1 : c ≠ '\\') (h2 : c ≠ '"') :
    lexStr (c :: cs) = (lexStr cs).map fun p => (c :: p.1, p.2) := by
  rw [lexStr.eq_def]
  split
  · rename_i heq
    cases heq
  · rename_i heq
    simp only [List.cons.injEq] at heq
    exact absurd heq.1 h1
  · rename_i e cs2 heq
    simp only [List.cons.injEq] at heq
    exact absurd heq.1 h1
  · rename_i c' cs' hne1 hne2 heq
    simp only [List.cons.injEq] at heq
    obtain ⟨rfl, rfl⟩ := heq
    rw [if_neg h2]

/-- The parser's string lexer inverts the serializer's escaping. -/
theorem lexStr_escL : ∀ s rest : List Char,
    lexStr (escL s ++ '"' :: rest) = some (s, rest) := by
  intro s
  induction s with
  | nil =>
    intro rest
    rfl
  | cons c s' ih =>
    intro rest
    show lexStr ((escC c ++ escL s') ++ '"' :: rest) = _
    rw [escC]
    by_cases hc : c = '"' ∨ c = '\\'
    · rw [if_pos hc]
      show lexStr ('\\' :: c :: (escL s' ++ '"' :: rest)) = _
      have hu : unescChar c = some c := by
        rcases hc with rfl | rfl <;> rfl
      rw [show lexStr ('\\' :: c :: (escL s' ++ '"' :: rest))
            = match unescChar c with
              | some d => (lexStr (escL s' ++ '"' :: rest)).map fun p => (d :: p.1, p.2)
              | none => none from rfl]
      rw [hu, ih rest]
      rfl
    · rw [if_neg hc]
      push_neg at hc
      show lexStr (c :: (escL s' ++ '"' :: rest)) = _
      rw [lexStr_plain _ hc.2 hc.1, ih rest]
      rfl

/-- A serialized string is a whole string literal, hence a chunk. -/
theorem serStr_chunk (k : List Char) : Chunk (serStr k) :=
  chunk_lit_nil (strBody_escL k)

/-- Everything the serializer emits is well-bracketed text. -/
theorem ser_chunk :
    (∀ v : Json, Chunk (serJ v))
    ∧ (∀ ms : List (List Char × Json), Chunk (serEntries ms))
    ∧ (∀ ms : List (List Char × Json), Chunk (serESep ms))
    ∧ (∀ xs : List Json, Chunk (serItems xs))
    ∧ (∀ xs : List Json, Chunk (serSep xs)) := by
  refine serJ.mutual_induct (fun v => Chunk (serJ v)) (fun ms => Chunk (serEntries ms))
    (fun ms => Chunk (serESep ms)) (fun xs => Chunk (serItems xs))
    (fun xs => Chunk (serSep xs)) ?_ ?_ ?_ ?_ ?_ ?_ ?_ ?_ ?_ ?_ ?_ ?_ ?_ ?_ ?_
  · intro n
    show Chunk (intChars n)
    refine chunk_of_plain ?_
    intro c hc
    rw [intChars] at hc
    by_cases hn : n < 0
    · rw [if_pos hn] at hc
      rcases List.mem_cons.mp hc with rfl | hc
      · decide
      · exact digit_not_special (natChars_digits _ c hc)
    · rw [if_neg hn] at hc
      exact digit_not_special (natChars_digits _ c hc)
  · exact chunk_of_plain (by decide)
  · exact chunk_of_plain (by decide)
  · exact chunk_of_plain (by decide)
  · intro s
    exact serStr_chunk s
  · intro xs ih
    show Chunk ('[' :: (serItems xs ++ [']']))
    exact Chunk.sqr ih Chunk.nil
  · intro ms ih
    show Chunk (obC :: (serEntries ms ++ [cbC]))
    exact Chunk.brc ih Chunk.nil
  · exact Chunk.nil
  · intro x xs ih1 ih2
    show Chunk (serJ x ++ serSep xs)
    exact chunk_append ih1 ih2
  · exact Chunk.nil
  · intro x xs ih1 ih2
    show Chunk (',' :: ' ' :: (serJ x ++ serSep xs))
    exact Chunk.plain (by decide) (Chunk.plain (by decide) (chunk_append ih1 ih2))
  · exact Chunk.nil
  · intro k v ms ih1 ih2
    show Chunk (serStr k ++ ':' :: ' ' :: (serJ v ++ serESep ms))
    exact chunk_append (serStr_chunk k)
      (Chunk.plain (by decide) (Chunk.plain (by decide) (chunk_append ih1 ih2)))
  · exact Chunk.nil
  · intro k v ms ih1 ih2
    show Chunk (',' :: ' ' :: (serStr k ++ ':' :: ' ' :: (serJ v ++ serESep ms)))
    refine Chunk.plain (by decide) (Chunk.plain (by decide) ?_)
    exact chunk_append (serStr_chunk k)
      (Chunk.plain (by decide) (Chunk.plain (by decide) (chunk_append ih1 ih2)))

/-- Well-bracketedness of each serializer component, named. -/
theorem serJ_chunk (v : Json) : Chunk (serJ v) := ser_chunk.1 v

/-- Serialized array elements are well-bracketed. -/
theorem serItems_chunk (xs : List Json) : Chunk (serItems xs) := ser_chunk.2.2.2.1 xs

/-- Serialized object entries are well-bracketed. -/
theorem serEntries_chunk (ms : List (List Char × Json)) : Chunk (serEntries ms) :=
  ser_chunk.2.1 ms

/-- A serialized value starts with a non-whitespace character that is
    neither a closing bracket nor a closing brace. -/
theorem serJ_head (v : Json) :
    ∃ c w, serJ v = c :: w ∧ isWsC c = false ∧ c ≠ ']' ∧ c ≠ cbC := by
  cases v with
  | null => exact ⟨'n', _, rfl, by decide, by decide, by decide⟩
  | bool b =>
    cases b
    · exact ⟨'f', _, rfl, by decide, by decide, by decide⟩
    · exact ⟨'t', _, rfl, by decide, by decide, by decide⟩
  | num i =>
    obtain ⟨c, w, hc, hd⟩ := intChars_shape i
    refine ⟨c, w, hc, ?_, ?_, ?_⟩
    · rcases hd with rfl | hd
      · decide
      · exact digit_not_ws hd
    · rcases hd with rfl | hd
      · decide
      · intro h
        rw [h] at hd
        exact absurd hd (by decide)
    · rcases hd with rfl | hd
      · decide
      · intro h
        rw [h] at hd
        exact absurd hd (by decide)
  | str s => exact ⟨'"', _, rfl, by decide, by decide, by decide⟩
  | arr xs => exact ⟨'[', _, rfl, by decide, by decide, by decide⟩
  | obj ms => exact ⟨obC, _, rfl, by decide, by decide, by decide⟩

/-- A serialized value is never empty. -/
theorem serJ_len_pos (v : Json) : 1 ≤ (serJ v).length := by
  obtain ⟨c, w, hc, -⟩ := serJ_head v
  rw [hc]
  simp

/-- Leading whitespace removal does not touch a serialized value. -/
theorem dropWs_serJ (v : Json) (rest : List Char) :
    dropWs (serJ v ++ rest) = serJ v ++ rest := by
  obtain ⟨c, w, hc, hw, -⟩ := serJ_head v
  rw [hc, List.cons_append, dropWs_cons_notWs _ hw]

/-- `parseVal` falls through to the integer lexer on a minus sign or a
    digit. -/
theorem parseVal_num (f : Nat) {cs : List Char} {c : Char} {r : List Char}
    (h : dropWs cs = c :: r) (hd : c = '-' ∨ isDig c = true) :
    parseVal (f + 1) cs = lexInt (c :: r) := by
  rw [parseVal, h]
  split
  · rename_i r' heq
    simp only [List.cons.injEq] at heq
    obtain ⟨rfl, -⟩ := heq
    rcases hd with h1 | h1 <;> exact absurd h1 (by decide)
  · rename_i r' heq
    simp only [List.cons.injEq] at heq
    obtain ⟨rfl, -⟩ := heq
    rcases hd with h1 | h1 <;> exact absurd h1 (by decide)
  · rename_i r' heq
    simp only [List.cons.injEq] at heq
    obtain ⟨rfl, -⟩ := heq
    rcases hd with h1 | h1 <;> exact absurd h1 (by decide)
  · rename_i r' heq
    simp only [List.cons.injEq] at heq
    obtain ⟨rfl, -⟩ := heq
    rcases hd with h1 | h1 <;> exact absurd h1 (by decide)
  · rename_i r' heq
    simp only [List.cons.injEq] at heq
    obtain ⟨rfl, -⟩ := heq
    rcases hd with h1 | h1 <;> exact absurd h1 (by decide)
  · rename_i c' r' e1 e2 e3 e4 e5 heq
    simp only [List.cons.injEq] at heq
    obtain ⟨rfl, rfl⟩ := heq
    have hob : ¬ (c = obC) := by
      rcases hd with rfl | h1
      · decide
      · intro hh
        rw [hh] at h1
        exact absurd h1 (by decide)
    rw [if_neg hob, if_pos]
    rcases hd with rfl | h1
    · decide
    · simp [h1]
  · rename_i heq
    cases heq

/-- The parser inverts the serializer: with enough fuel, a serialized
    value preceded by whitespace and followed by non-digit text parses
    back to itself, and likewise for serialized element and entry lists
    up to their closing delimiter. -/
theorem parseRT : ∀ f : Nat,
    (∀ pre (v : Json) rest, (∀ c ∈ pre, isWsC c = true) → noDigHead rest →
      pre.length + (serJ v).length ≤ f →
      parseVal f (pre ++ (serJ v ++ rest)) = some (v, rest))
    ∧ (∀ pre (xs : List Json) rest, (∀ c ∈ pre, isWsC c = true) → xs ≠ [] →
      pre.length + (serItems xs).length + 1 ≤ f →
      parseItems f (pre ++ (serItems xs ++ ']' :: rest)) = some (xs, rest))
    ∧ (∀ pre (ms : List (List Char × Json)) rest, (∀ c ∈ pre, isWsC c = true) → ms ≠ [] →
      pre.length + (serEntries ms).length + 1 ≤ f →
      parseEntries f (pre ++ (serEntries ms ++ cbC :: rest)) = some (ms, rest)) := by
  intro f
  induction f with
  | zero =>
    refine ⟨fun pre v rest _ _ hlen => ?_, fun pre xs rest _ _ hlen => ?_,
      fun pre ms rest _ _ hlen => ?_⟩
    · exfalso
      have := serJ_len_pos v
      omega
    · exfalso
      omega
    · exfalso
      omega
  | succ f ih =>
    obtain ⟨ihV, ihI, ihE⟩ := ih
    refine ⟨?_, ?_, ?_⟩
    · -- parseVal
      intro pre v rest hpre hnd hlen
      have hdw : dropWs (pre ++ (serJ v ++ rest)) = serJ v ++ rest := by
        rw [dropWs_ws_append _ hpre]
        exact dropWs_serJ v rest
      cases v with
      | null =>
        have h1 : dropWs (pre ++ (serJ .null ++ rest)) = 'n' :: 'u' :: 'l' :: 'l' :: rest := hdw
        rw [parseVal, h1]
        rfl
      | bool b =>
        cases b
        · have h1 : dropWs (pre ++ (serJ (.bool false) ++ rest))
              = 'f' :: 'a' :: 'l' :: 's' :: 'e' :: rest := hdw
          rw [parseVal, h1]
          rfl
        · have h1 : dropWs (pre ++ (serJ (.bool true) ++ rest))
              = 't' :: 'r' :: 'u' :: 'e' :: rest := hdw
          rw [parseVal, h1]
          rfl
      | num i =>
        obtain ⟨c, w, hc, hd⟩ := intChars_shape i
        have h1 : dropWs (pre ++ (serJ (.num i) ++ rest)) = c :: (w ++ rest) := by
          rw [hdw]
          show intChars i ++ rest = _
          rw [hc, List.cons_append]
        rw [parseVal_num f h1 hd]
        rw [show c :: (w ++ rest) = intChars i ++ rest from by rw [hc, List.cons_append]]
        exact lexInt_ser i rest hnd
      | str s =>
        have h1 : dropWs (pre ++ (serJ (.str s) ++ rest))
            = '"' :: (escL s ++ ('"' :: rest)) := by
          rw [hdw]
          show ('"' :: (escL s ++ ['"'])) ++ rest = _
          simp [List.append_assoc]
        rw [parseVal, h1]
        show (lexStr (escL s ++ ('"' :: rest))).map (fun p => (Json.str p.1, p.2))
          = some (.str s, rest)
        rw [lexStr_escL]
        rfl
      | arr xs =>
        cases xs with
        | nil =>
          have h1 : dropWs (pre ++ (serJ (.arr []) ++ rest)) = '[' :: (']' :: rest) := hdw
          rw [parseVal, h1]
          rfl
        | cons x xs' =>
          have h1 : dropWs (pre ++ (serJ (.arr (x :: xs')) ++ rest))
              = '[' :: (serJ x ++ (serSep xs' ++ (']' :: rest))) := by
            rw [hdw]
            show ('[' :: (serItems (x :: xs') ++ [']'])) ++ rest = _
            simp [serItems, List.append_assoc]
          rw [parseVal, h1]
          show (match dropWs (serJ x ++ (serSep xs' ++ (']' :: rest))) with
                | ']' :: r2 => some (Json.arr [], r2)
                | r1 => Option.map (fun p => (Json.arr p.1, p.2)) (parseItems f r1))
              = some (.arr (x :: xs'), rest)
          obtain ⟨c, w, hc, hcw, hcb, -⟩ := serJ_head x
          have h2 : dropWs (serJ x ++ (serSep xs' ++ (']' :: rest)))
              = c :: (w ++ (serSep xs' ++ (']' :: rest))) := by
            rw [hc, List.cons_append, dropWs_cons_notWs _ hcw]
          rw [h2]
          split
          · rename_i r2 heq
            simp only [List.cons.injEq] at heq
            exact absurd heq.1 hcb
          · have h3 : (c :: (w ++ (serSep xs' ++ (']' :: rest))))
                = serItems (x :: xs') ++ (']' :: rest) := by
              rw [← List.cons_append, ← hc]
              simp [serItems, List.append_assoc]
            rw [h3]
            have hL : (serJ (.arr (x :: xs'))).length = (serItems (x :: xs')).length + 2 := by
              show ('[' :: (serItems (x :: xs') ++ [']'])).length = (serItems (x :: xs')).length + 2
              simp
            have h4 := ihI [] (x :: xs') rest (by intro a ha; cases ha) (by simp)
              (by show 0 + (serItems (x :: xs')).length + 1 ≤ f; omega)
            rw [List.nil_append] at h4
            rw [h4]
            rfl
      | obj ms =>
        cases ms with
        | nil =>
          have h1 : dropWs (pre ++ (serJ (.obj []) ++ rest)) = obC :: (cbC :: rest) := hdw
          rw [parseVal, h1]
          rfl
        | cons e ms' =>
          obtain ⟨k, v⟩ := e
          have h1 : dropWs (pre ++ (serJ (.obj ((k, v) :: ms')) ++ rest))
              = obC :: ('"' :: (escL k ++ ('"' :: (':' :: (' ' ::
                  (serJ v ++ (serESep ms' ++ (cbC :: rest)))))))) := by
            rw [hdw]
            show obC :: ((serEntries ((k, v) :: ms') ++ [cbC]) ++ rest) = _
            simp [serEntries, serStr, List.append_assoc]
          rw [parseVal, h1]
          show (parseEntries f ('"' :: (escL k ++ ('"' :: (':' :: (' ' ::
                (serJ v ++ (serESep ms' ++ (cbC :: rest))))))))).map
              (fun p => (Json.obj p.1, p.2)) = some (.obj ((k, v) :: ms'), rest)
          have h3 : ('"' :: (escL k ++ ('"' :: (':' :: (' ' ::
                (serJ v ++ (serESep ms' ++ (cbC :: rest))))))))
              = serEntries ((k, v) :: ms') ++ (cbC :: rest) := by
            simp [serEntries, serStr, List.append_assoc]
          rw [h3]
          have hL : (serJ (.obj ((k, v) :: ms'))).length
              = (serEntries ((k, v) :: ms')).length + 2 := by
            show (obC :: (serEntries ((k, v) :: ms') ++ [cbC])).length
              = (serEntries ((k, v) :: ms')).length + 2
            simp
          have h4 := ihE [] ((k, v) :: ms') rest (by intro a ha; cases ha) (by simp)
            (by show 0 + (serEntries ((k, v) :: ms')).length + 1 ≤ f; omega)
          rw [List.nil_append] at h4
          rw [h4]
          rfl
    · -- parseItems
      intro pre xs rest hpre hne hlen
      cases xs with
      | nil => exact absurd rfl hne
      | cons x xs' =>
        rw [parseItems]
        have hnd' : noDigHead (serSep xs' ++ (']' :: rest)) := by
          cases xs' with
          | nil => exact (by decide : isDig ']' = false)
          | cons y ys => exact (by decide : isDig ',' = false)
        have hLi : (serItems (x :: xs')).length
            = (serJ x).length + (serSep xs').length := by
          simp only [serItems, List.length_append]
        have hv := ihV pre x (serSep xs' ++ (']' :: rest)) hpre hnd' (by omega)
        have hcs : pre ++ (serItems (x :: xs') ++ (']' :: rest))
            = pre ++ (serJ x ++ (serSep xs' ++ (']' :: rest))) := by
          simp [serItems, List.append_assoc]
        rw [hcs, hv]
        simp only []
        cases xs' with
        | nil =>
          rw [show dropWs (serSep ([] : List Json) ++ (']' :: rest)) = ']' :: rest from
            dropWs_cons_notWs rest (by decide)]
          rfl
        | cons y ys =>
          have hd3 : dropWs (serSep (y :: ys) ++ (']' :: rest))
              = ',' :: (' ' :: ((serJ y ++ serSep ys) ++ (']' :: rest))) := by
            show dropWs (',' :: (' ' :: ((serJ y ++ serSep ys) ++ (']' :: rest)))) = _
            exact dropWs_cons_notWs _ (by decide)
          rw [hd3]
          simp only []
          have hLs : (serSep (y :: ys)).length = 2 + (serItems (y :: ys)).length := by
            simp only [serSep, serItems, List.length_cons, List.length_append]
            omega
          have hx := serJ_len_pos x
          have h5 : parseItems f (' ' :: ((serJ y ++ serSep ys) ++ (']' :: rest)))
              = some (y :: ys, rest) :=
            ihI [' '] (y :: ys) rest (by decide) (by simp)
              (by show 1 + (serItems (y :: ys)).length + 1 ≤ f; omega)
          rw [h5]
          rfl
    · -- parseEntries
      intro pre ms rest hpre hne hlen
      cases ms with
      | nil => exact absurd rfl hne
      | cons e ms' =>
        obtain ⟨k, v⟩ := e
        rw [parseEntries]
        have h1 : dropWs (pre ++ (serEntries ((k, v) :: ms') ++ cbC :: rest))
            = '"' :: (escL k ++ ('"' :: (':' :: (' ' ::
                (serJ v ++ (serESep ms' ++ cbC :: rest)))))) := by
          rw [dropWs_ws_append _ hpre]
          have h0 : serEntries ((k, v) :: ms') ++ cbC :: rest
              = '"' :: (escL k ++ ('"' :: (':' :: (' ' ::
                  (serJ v ++ (serESep ms' ++ cbC :: rest)))))) := by
            show (serStr k ++ ':' :: ' ' :: (serJ v ++ serESep ms')) ++ cbC :: rest = _
            simp [serStr, List.append_assoc]
          rw [h0, dropWs_cons_notWs _ (by decide)]
        rw [h1]
        simp only []
        rw [lexStr_escL k (':' :: (' ' :: (serJ v ++ (serESep ms' ++ cbC :: rest))))]
        simp only []
        rw [dropWs_cons_notWs _ (by decide)]
        simp only []
        have hnd2 : noDigHead (serESep ms' ++ cbC :: rest) := by
          cases ms' with
          | nil => exact (by decide : isDig cbC = false)
          | cons e2 ms'' => exact (by decide : isDig ',' = false)
        have hLe : (serEntries ((k, v) :: ms')).length
            = (serStr k).length + 2 + ((serJ v).length + (serESep ms').length) := by
          simp only [serEntries, List.length_append, List.length_cons]
          omega
        have hLk : (serStr k).length = (escL k).length + 2 := by
          show ('"' :: (escL k ++ ['"'])).length = (escL k).length + 2
          simp
        have hv2 : parseVal f (' ' :: (serJ v ++ (serESep ms' ++ cbC :: rest)))
            = some (v, serESep ms' ++ cbC :: rest) :=
          ihV [' '] v (serESep ms' ++ cbC :: rest) (by decide) hnd2
            (by show 1 + (serJ v).length ≤ f; omega)
        rw [hv2]
        simp only []
        cases ms' with
        | nil =>
          rw [show dropWs (serESep ([] : List (List Char × Json)) ++ cbC :: rest)
              = cbC :: rest from dropWs_cons_notWs rest (by decide)]
          rfl
        | cons e2 ms'' =>
          obtain ⟨k2, v2⟩ := e2
          have hd3 : dropWs (serESep ((k2, v2) :: ms'') ++ cbC :: rest)
              = ',' :: (' ' :: ((serStr k2 ++ ':' :: ' ' ::
                  (serJ v2 ++ serESep ms'')) ++ cbC :: rest)) := by
            show dropWs (',' :: (' ' :: ((serStr k2 ++ ':' :: ' ' ::
                (serJ v2 ++ serESep ms'')) ++ cbC :: rest))) = _
            exact dropWs_cons_notWs _ (by decide)
          rw [hd3]
          simp only []
          have hLs : (serESep ((k2, v2) :: ms'')).length
              = 2 + (serEntries ((k2, v2) :: ms'')).length := by
            simp only [serESep, serEntries, List.length_cons, List.length_append]
            omega
          have hvp := serJ_len_pos v
          have hE : parseEntries f
              (' ' :: ((serStr k2 ++ ':' :: ' ' :: (serJ v2 ++ serESep ms'')) ++ cbC :: rest))
              = some ((k2, v2) :: ms'', rest) :=
            ihE [' '] ((k2, v2) :: ms'') rest (by decide) (by simp)
              (by show 1 + (serEntries ((k2, v2) :: ms'')).length + 1 ≤ f; omega)
          rw [hE]
          rfl

/-- `json.loads` of a serialized value returns that value. -/
theorem jsonLoads_serJ (v : Json) : jsonLoads (serJ v) = some v := by
  rw [jsonLoads]
  have h := (parseRT ((serJ v).length + 1)).1 [] v []
    (by intro a ha; cases ha) trivial (by simp)
  rw [List.nil_append, List.append_nil] at h
  rw [h]
  rfl

/-- Taking a prefix of a serialized object keeps the opening brace and a
    prefix of the serialized entries. -/
theorem serObj_take_shape (ms : List (List Char × Json)) (m : Nat)
    (h2 : m ≤ (serEntries ms).length) :
    (serJ (.obj ms)).take (m + 1) = obC :: (serEntries ms).take m := by
  show (obC :: (serEntries ms ++ [cbC])).take (m + 1) = _
  rw [List.take_succ_cons]
  congr 1
  rw [List.take_append_eq_append_take]
  rw [show m - (serEntries ms).length = 0 from by omega]
  simp

/-- `json.loads` rejects every strict nonempty prefix of a serialized
    object: the outer brace stays open, so the brace depth of anything
    the parser could accept would have to be both zero and positive. -/
theorem loads_obj_prefix_fail (ms : List (List Char × Json)) (n : Nat)
    (h1 : 1 ≤ n) (h2 : n < (serJ (.obj ms)).length) :
    jsonLoads ((serJ (.obj ms)).take n) = none := by
  obtain ⟨m, rfl⟩ : ∃ m, n = m + 1 := ⟨n - 1, by omega⟩
  have hLD : (serJ (.obj ms)).length = (serEntries ms).length + 2 := by
    show (obC :: (serEntries ms ++ [cbC])).length = (serEntries ms).length + 2
    simp
  have hm : m ≤ (serEntries ms).length := by omega
  rw [serObj_take_shape ms m hm]
  set q := (serEntries ms).take m with hq
  rw [jsonLoads]
  cases hpv : parseVal ((obC :: q).length + 1) (obC :: q) with
  | none => rfl
  | some pr =>
    obtain ⟨v, r⟩ := pr
    obtain ⟨c, hc, hcc⟩ := (parseChunk ((obC :: q).length + 1)).1 (obC :: q) v r hpv
    simp only []
    by_cases hdr : dropWs r = []
    · exfalso
      have e1 : braceRun ⟨false, false, 0⟩ (obC :: q) = ⟨false, false, 0⟩ := by
        rw [hc, braceRun_append, chunk_run hcc 0,
          chunk_run (chunk_ws (dropWs_nil_ws r hdr)) 0]
      have e2 : 1 ≤ (braceRun ⟨false, false, 0⟩ (obC :: q)).dep := by
        show 1 ≤ (braceRun (braceStep ⟨false, false, 0⟩ obC) q).dep
        rw [braceStep_ob 0, braceRun_shift]
        have hpre0 : 0 ≤ (braceRun ⟨false, false, 0⟩ q).dep :=
          chunk_run_pre (serEntries_chunk ms) 0 le_rfl q ((serEntries ms).drop m)
            (by rw [hq, List.take_append_drop])
        simp only []
        omega
      rw [e1] at e2
      simp at e2
    · rw [if_neg hdr]

/-- A special character is none of the scanner's trigger characters. -/
theorem specialC_split {c : Char} (h : specialC c = false) :
    c ≠ '"' ∧ c ≠ '\\' ∧ c ≠ '[' ∧ c ≠ ']' ∧ c ≠ obC ∧ c ≠ cbC := by
  simp only [specialC, Bool.or_eq_false_iff, beq_eq_false_iff_ne, ne_eq] at h
  exact ⟨h.1.1.1.1.1, h.1.1.1.1.2, h.1.1.1.2, h.1.1.2, h.1.2, h.2⟩

/-- Inside a string literal the scanner ignores everything up to the
    closing quote, advancing the index by the body length. -/
theorem findClose_strBody {b : List Char} (hb : StrBody b) :
    ∀ cnt idx rest, findClose true false cnt idx (b ++ rest)
      = findClose false false cnt (idx + b.length) rest := by
  induction hb with
  | close => intro cnt idx rest; rfl
  | esc e hsb ih =>
    intro cnt idx rest
    rename_i r
    rw [show findClose true false cnt idx (('\\' :: e :: r) ++ rest)
        = findClose true false cnt (idx + 1 + 1) (r ++ rest) from rfl]
    rw [ih cnt (idx + 1 + 1) rest]
    congr 1
    simp
    omega
  | chr h1 h2 hsb ih =>
    intro cnt idx rest
    rename_i c r
    rw [show findClose true false cnt idx ((c :: r) ++ rest)
        = if c = '\\' then findClose true true cnt (idx + 1) (r ++ rest)
          else if c = '"' then findClose false false cnt (idx + 1) (r ++ rest)
          else findClose true false cnt (idx + 1) (r ++ rest) from by
      rw [List.cons_append, findClose]
      simp]
    rw [if_neg h2, if_neg h1, ih cnt (idx + 1) rest]
    congr 1
    simp
    omega

/-- Well-bracketed text is transparent to the scanner: no quote state
    change, no net bracket count, index advanced by its length. -/
theorem findClose_chunk {ch : List Char} (hc : Chunk ch) :
    ∀ cnt idx rest, findClose false false cnt idx (ch ++ rest)
      = findClose false false cnt (idx + ch.length) rest := by
  induction hc with
  | nil => intro cnt idx rest; rfl
  | plain hsp hcs ih =>
    intro cnt idx rest
    rename_i c cs
    obtain ⟨hq, hbs, hob, hcb, -, -⟩ := specialC_split hsp
    rw [show findClose false false cnt idx ((c :: cs) ++ rest)
        = if c = '\\' then findClose false true cnt (idx + 1) (cs ++ rest)
          else if c = '"' then findClose true false cnt (idx + 1) (cs ++ rest)
          else if c = '[' then findClose false false (cnt + 1) (idx + 1) (cs ++ rest)
          else if c = ']' then
            (if cnt = 0 then some idx else findClose false false (cnt - 1) (idx + 1) (cs ++ rest))
          else findClose false false cnt (idx + 1) (cs ++ rest) from by
      rw [List.cons_append, findClose]
      simp]
    rw [if_neg hbs, if_neg hq, if_neg hob, if_neg hcb, ih cnt (idx + 1) rest]
    congr 1
    simp
    omega
  | lit hs hcs ih =>
    intro cnt idx rest
    rename_i b cs
    rw [show ('"' :: (b ++ cs)) ++ rest = '"' :: (b ++ (cs ++ rest)) from by simp]
    rw [show findClose false false cnt idx ('"' :: (b ++ (cs ++ rest)))
        = findClose true false cnt (idx + 1) (b ++ (cs ++ rest)) from rfl]
    rw [findClose_strBody hs cnt (idx + 1) (cs ++ rest), ih cnt (idx + 1 + b.length) rest]
    congr 1
    simp
    omega
  | sqr hin hcs ihi ih =>
    intro cnt idx rest
    rename_i inner cs
    rw [show ('[' :: (inner ++ ']' :: cs)) ++ rest
        = '[' :: (inner ++ (']' :: (cs ++ rest))) from by simp]
    rw [show findClose false false cnt idx ('[' :: (inner ++ (']' :: (cs ++ rest))))
        = findClose false false (cnt + 1) (idx + 1) (inner ++ (']' :: (cs ++ rest))) from rfl]
    rw [ihi (cnt + 1) (idx + 1) (']' :: (cs ++ rest))]
    rw [show findClose false false (cnt + 1) (idx + 1 + inner.length) (']' :: (cs ++ rest))
        = findClose false false cnt (idx + 1 + inner.length + 1) (cs ++ rest) from by
      rw [findClose]
      simp]
    rw [ih cnt (idx + 1 + inner.length + 1) rest]
    congr 1
    simp
    omega
  | brc hin hcs ihi ih =>
    intro cnt idx rest
    rename_i inner cs
    rw [show (obC :: (inner ++ cbC :: cs)) ++ rest
        = obC :: (inner ++ (cbC :: (cs ++ rest))) from by simp]
    rw [show findClose false false cnt idx (obC :: (inner ++ (cbC :: (cs ++ rest))))
        = findClose false false cnt (idx + 1) (inner ++ (cbC :: (cs ++ rest))) from rfl]
    rw [ihi cnt (idx + 1) (cbC :: (cs ++ rest))]
    rw [show findClose false false cnt (idx + 1 + inner.length) (cbC :: (cs ++ rest))
        = findClose false false cnt (idx + 1 + inner.length + 1) (cs ++ rest) from rfl]
    rw [ih cnt (idx + 1 + inner.length + 1) rest]
    congr 1
    simp
    omega

/-- The scanner run from count zero over well-bracketed text followed by
    a closing bracket stops exactly at that bracket. -/
theorem findClose_chunk_close {ch : List Char} (hc : Chunk ch) (idx : Nat)
    (tail : List Char) :
    findClose false false 0 idx (ch ++ ']' :: tail) = some (idx + ch.length) := by
  rw [findClose_chunk hc 0 idx (']' :: tail)]
  rfl

/-- A serialized combined document: a JSON object with an `ingredients`
    array and a `recipes` array, in the prompt's key order. -/
def serDoc (ings rs : List Json) : List Char :=
  serJ (.obj [(kIngredients, .arr ings), (kRecipes, .arr rs)])

/-- Structure of the serialized document around its two arrays. -/
theorem serDoc_split (ings rs : List Json) :
    serDoc ings rs = (obC :: needleIngrBr)
      ++ (serItems ings ++ (']' :: ((',' :: ' ' :: needleRecBr)
        ++ (serItems rs ++ (']' :: [cbC]))))) := by
  show obC :: ((serStr kIngredients ++ ':' :: ' ' :: (serJ (.arr ings)
      ++ (',' :: ' ' :: (serStr kRecipes ++ ':' :: ' ' :: (serJ (.arr rs) ++ []))))) ++ [cbC]) = _
  rw [show needleIngrBr = serStr kIngredients ++ (':' :: ' ' :: ['[']) from rfl,
      show needleRecBr = serStr kRecipes ++ (':' :: ' ' :: ['[']) from rfl,
      show serJ (.arr ings) = '[' :: (serItems ings ++ [']']) from rfl,
      show serJ (.arr rs) = '[' :: (serItems rs ++ [']']) from rfl]
  simp [List.append_assoc]

/-- Truncating the document anywhere at or after the ingredients
    array's closing bracket keeps the whole prefix through that
    bracket. -/
theorem serDoc_take (ings rs : List Json) (t : Nat)
    (h1 : 18 + (serItems ings).length ≤ t) :
    (serDoc ings rs).take t
      = (obC :: needleIngrBr) ++ (serItems ings ++ (']' ::
          (((',' :: ' ' :: needleRecBr) ++ (serItems rs ++ (']' :: [cbC]))).take
            (t - 18 - (serItems ings).length)))) := by
  rw [serDoc_split]
  rw [List.take_append_eq_append_take]
  rw [show (obC :: needleIngrBr).length = 17 from rfl]
  rw [List.take_of_length_le (show (obC :: needleIngrBr).length ≤ t from by
    rw [show (obC :: needleIngrBr).length = 17 from rfl]
    omega)]
  congr 1
  rw [List.take_append_eq_append_take]
  rw [List.take_of_length_le (show (serItems ings).length ≤ t - 17 from by omega)]
  congr 1
  rw [show t - 17 - (serItems ings).length = (t - 18 - (serItems ings).length) + 1 from by omega]
  rw [List.take_succ_cons]

/-- `str.find` locates the `"ingredients": [` needle at index 1 of any
    text that starts with an opening brace followed by the needle. -/
theorem strFind_serDoc (X : List Char) :
    strFind needleIngrBr ((obC :: needleIngrBr) ++ X) = some 1 := by
  have h2 : needleIngrBr.isPrefixOf (needleIngrBr ++ X) = true := by
    rw [List.isPrefixOf_iff_prefix]
    exact List.prefix_append _ _
  have e2 : strFind needleIngrBr (needleIngrBr ++ X) = some 0 := by
    rw [strFind.eq_def]
    split
    · rename_i heq
      rw [List.append_eq_nil] at heq
      exact absurd heq.1 (by decide)
    · rename_i c u heq
      rw [← heq, h2]
      simp
  rw [List.cons_append, strFind.eq_def]
  split
  · rename_i heq
    cases heq
  · rename_i c u heq
    simp only [List.cons.injEq] at heq
    obtain ⟨rfl, rfl⟩ := heq
    rw [show needleIngrBr.isPrefixOf (obC :: (needleIngrBr ++ X)) = false from rfl]
    simp [e2]

/-- C1: for every document with an `ingredients` array and a `recipes`
    array, truncating the serialized text at any offset at or past the
    ingredients array's closing bracket but before the end of the
    document makes the archived `parse_combined_response` recover the
    full `ingredients` array unchanged through its bracket-depth scanner
    (quote- and escape-aware, so brackets inside ingredient objects and
    strings do not mislead it). -/
theorem C1_truncation_recovers_ingredients (ings rs : List Json) (t : Nat)
    (h1 : 18 + (serItems ings).length ≤ t)
    (h2 : t < (serDoc ings rs).length) :
    ∃ rec ia, parseCombinedArchive ((serDoc ings rs).take t)
      = .ok ⟨.arr ings, rec, ia, (serDoc ings rs).take t⟩ := by
  have htake := serDoc_take ings rs t h1
  have h2' : t < (serJ (.obj [(kIngredients, .arr ings), (kRecipes, .arr rs)])).length := h2
  have hload : jsonLoads ((serDoc ings rs).take t) = none :=
    loads_obj_prefix_fail [(kIngredients, .arr ings), (kRecipes, .arr rs)] t (by omega) h2'
  have hsalv : ∃ rec ia, salvageCombined ((serDoc ings rs).take t)
      = ⟨.arr ings, rec, ia, (serDoc ings rs).take t⟩ := by
    have hfind : strFind needleIngrBr ((serDoc ings rs).take t) = some 1 := by
      rw [htake]
      exact strFind_serDoc _
    have hdrop : ((serDoc ings rs).take t).drop (1 + 16)
        = serItems ings ++ (']' ::
          (((',' :: ' ' :: needleRecBr) ++ (serItems rs ++ (']' :: [cbC]))).take
            (t - 18 - (serItems ings).length))) := by
      rw [htake]
      rw [show (1 + 16 : Nat) = (obC :: needleIngrBr).length from rfl]
      exact List.drop_left _ _
    have hfc : findClose false false 0 (1 + 16) (((serDoc ings rs).take t).drop (1 + 16))
        = some (1 + 16 + (serItems ings).length) := by
      rw [hdrop]
      exact findClose_chunk_close (serItems_chunk ings) (1 + 16) _
    have hslice : (((serDoc ings rs).take t).take (1 + 16 + (serItems ings).length + 1)).drop
        (1 + 15) = serJ (.arr ings) := by
      rw [List.take_take]
      rw [show min (1 + 16 + (serItems ings).length + 1) t
          = 18 + (serItems ings).length from by omega]
      rw [serDoc_take ings rs (18 + (serItems ings).length) (by omega)]
      rw [show 18 + (serItems ings).length - 18 - (serItems ings).length = 0 from by omega]
      rw [List.take_zero]
      rw [List.drop_append_eq_append_drop]
      rw [show (obC :: needleIngrBr).drop (1 + 15) = ['['] from rfl]
      rw [show (1 + 15) - (obC :: needleIngrBr).length = 0 from rfl]
      rw [List.drop_zero]
      rfl
    have hjl : jsonLoads ((((serDoc ings rs).take t).take
        (1 + 16 + (serItems ings).length + 1)).drop (1 + 15)) = some (.arr ings) := by
      rw [hslice]
      exact jsonLoads_serJ _
    rw [salvageCombined]
    rw [hfind]
    simp only []
    rw [hfc]
    simp only []
    rw [hjl]
    exact ⟨_, _, rfl⟩
  obtain ⟨rec, ia, hs⟩ := hsalv
  refine ⟨rec, ia, ?_⟩
  have hfirst : firstIdxOf obC ((serDoc ings rs).take t) = some 0 := by
    rw [htake]
    rw [show ((obC :: needleIngrBr) ++ (serItems ings ++ (']' ::
        (((',' :: ' ' :: needleRecBr) ++ (serItems rs ++ (']' :: [cbC]))).take
          (t - 18 - (serItems ings).length)))))
        = obC :: (needleIngrBr ++ (serItems ings ++ (']' ::
          (((',' :: ' ' :: needleRecBr) ++ (serItems rs ++ (']' :: [cbC]))).take
            (t - 18 - (serItems ings).length))))) from rfl]
    rfl
  rw [parseCombinedArchive]
  rw [hload]
  simp only []
  rcases hlast : lastIdxOf cbC ((serDoc ings rs).take t) with - | j
  · have hbs : braceSearch ((serDoc ings rs).take t) = none := by
      rw [braceSearch, hfirst, hlast]
    rw [hbs]
    simp only []
    rw [hs]
  · by_cases hjp : 0 < j
    · have hbs : braceSearch ((serDoc ings rs).take t)
          = some ((((serDoc ings rs).take t).take (j + 1)).drop 0) := by
        rw [braceSearch, hfirst, hlast]
        simp only []
        rw [if_pos hjp]
      have hgl : jsonLoads ((((serDoc ings rs).take t).take (j + 1)).drop 0) = none := by
        rw [List.drop_zero, List.take_take]
        refine loads_obj_prefix_fail _ (min (j + 1) t) (by omega) ?_
        have := min_le_right (j + 1) t
        omega
      rw [hbs]
      simp only []
      rw [hgl]
      simp only []
      rw [hs]
    · have hj0 : j = 0 := by omega
      subst hj0
      have hbs : braceSearch ((serDoc ings rs).take t) = none := by
        rw [braceSearch, hfirst, hlast]
        simp only []
        rw [if_neg hjp]
      rw [hbs]
      simp only []
      rw [hs]

/-! ### Concrete inputs used by counterexamples and witnesses -/

/-- A response with no JSON structure at all (testable scenario 3 of the
    specification). -/
def catResp : List Char := "I see a photo of a cat, not a fridge.".toList

/-- An ingredient-detection response whose single candidate has a
    whitespace-only name. -/
def wsNameResp : List Char :=
  ("\x7b\"ingredients\": [\x7b\"name\": \"   \", \"estimated_quantity\": 1, "
    ++ "\"unit\": \"oz\", \"category\": \"produce\"\x7d], \"total_items\": 1, "
    ++ "\"detection_confidence\": \"high\"\x7d").toList

/-- The validator output on `wsNameResp`: the whitespace-named entry is
    kept. -/
def wsNameOut : IngOut :=
  ⟨[⟨.str "   ".toList, ['1'], .str "oz".toList, .str "produce".toList⟩],
   .str "high".toList, 1⟩

/-- A recipe-generation response with two schema-style recipe candidates
    (each containing a nested object inside a nested array). -/
def twoRecResp : List Char :=
  ("\x7b\"recipes\": [\x7b\"name\": \"A\", \"steps\": [\x7b\"n\": 1\x7d]\x7d, "
    ++ "\x7b\"name\": \"B\", \"steps\": [\x7b\"n\": 2\x7d]\x7d]\x7d").toList

/-- The two recipe candidates contained in `twoRecResp`. -/
def twoRecCands : List Json :=
  [.obj [(kName, .str ['A']), ("steps".toList, .arr [.obj [(['n'], .num 1)]])],
   .obj [(kName, .str ['B']), ("steps".toList, .arr [.obj [(['n'], .num 2)]])]]

/-- Prefix of the truncated combined response: analysis, ingredients, and
    the opening of the recipes array. -/
def truncPre : List Char :=
  ("\x7b\"image_analysis\": \x7b\"is_food_image\": true\x7d, "
    ++ "\"ingredients\": [\x7b\"name\": \"egg\"\x7d], \"recipes\": [").toList

/-- First complete recipe object of the truncated response (nested
    `ingredients_used` and `nutrition` objects, as the prompt format
    requires). -/
def truncR1 : List Char :=
  ("\x7b\"name\": \"R1\", \"ingredients_used\": [\x7b\"name\": \"egg\", \"amount\": \"2\"\x7d], "
    ++ "\"nutrition\": \x7b\"calories\": 100\x7d\x7d").toList

/-- Second complete recipe object of the truncated response. -/
def truncR2 : List Char :=
  ("\x7b\"name\": \"R2\", \"ingredients_used\": [\x7b\"name\": \"egg\", \"amount\": \"1\"\x7d], "
    ++ "\"nutrition\": \x7b\"calories\": 200\x7d\x7d").toList

/-- Truncation point: the third recipe object cut off mid-way. -/
def truncTail : List Char :=
  ", \x7b\"name\": \"R3\", \"ingredients_used\": [\x7b\"name\": \"egg\",".toList

/-- The whole truncated combined response: two complete recipes, then the
    third cut off. -/
def truncResp : List Char := truncPre ++ truncR1 ++ ", ".toList ++ truncR2 ++ truncTail

/-- A recipe candidate whose nutrition carries a numeric-looking string. -/
def strCalRecipe : Json :=
  .obj [(kName, .str ['A']), (kNutrition, .obj [(kCalories, .str "400".toList)])]

/-- A well-formed combined response: not a food image and no
    ingredients. -/
def noFoodResp : List Char :=
  ("\x7b\"image_analysis\": \x7b\"is_food_image\": false\x7d, "
    ++ "\"ingredients\": [], \"recipes\": []\x7d").toList

/-- The parsed top-level dict of `noFoodResp`. -/
def noFoodMs : List (List Char × Json) :=
  [(kImageAnalysis, .obj [(kIsFood, .bool false)]),
   (kIngredients, .arr []), (kRecipes, .arr [])]

/-! ### Claims C2 to C10 -/

/-- C2: the claim says a response truncated mid-way through the third
    recipe object yields all ingredients plus exactly the two complete
    preceding recipe objects.  The code is wrong: its recipe regex
    `\{[^{]*?"name":[^}]+?\}` stops at the first `}` after `"name":`, so
    on recipes in the format the same file's prompt mandates (nested
    `ingredients_used` and `nutrition` objects) every match crosses an
    object boundary and fails to parse.  At this input the two complete,
    individually parseable recipe objects preceding the truncation are
    both lost: the salvage returns the full ingredient array but zero
    recipes. -/
theorem C2_truncated_recipes_lost :
    (jsonLoads truncR1).isSome = true ∧ (jsonLoads truncR2).isSome = true
    ∧ parseCombinedArchive truncResp
        = .ok ⟨.arr [.obj [(kName, .str "egg".toList)]], .arr [],
               .obj [(kIsFood, .bool true)], truncResp⟩ :=
  ⟨rfl, rfl, rfl⟩

/-- C3 counterexample: the claim says entries whose name is
    whitespace-only (for example `"   "`) are excluded by normalization.
    They are not: the filter is `if ing.get('name')`, Python truthiness,
    and a whitespace-only string is truthy, so the entry is kept and
    counted. -/
theorem C3_whitespace_name_kept :
    validateIngredientResponse wsNameResp = some wsNameOut
    ∧ wsNameOut.ingredients.length = 1 :=
  ⟨rfl, rfl⟩

/-- C3 as amended: normalization excludes exactly the entries whose name
    value is Python-falsy (absent, `None`, or the empty string `""`);
    whitespace-only names are kept; the output count is the input count
    minus the excluded entries. -/
theorem C3_name_filter_amended (ings : List Json) (tv cv : Json)
    (h : ∀ i ∈ ings, isObjJ i = true) :
    validateIngredientData (.obj [(kIngredients, .arr ings), (kTotalItems, tv), (kDetConf, cv)])
        = some ⟨ingRecsOf ings, cv, (ingRecsOf ings).length⟩
    ∧ (ingRecsOf ings).length + (ings.filter fun i => !ingKeepJ i).length = ings.length
    ∧ ∀ ms, ingKeepJ (.obj ms) = pyTruthy (getKeyD ms kName .null) :=
  ⟨validateIngredientData_eq ings tv cv h, ingRecs_length_split ings h, fun _ => rfl⟩

/-- Witness for `C3_name_filter_amended`: three candidates with names
    `"   "` (kept), `""` (dropped) and absent (dropped). -/
theorem C3_name_filter_amended_witness :
    (∀ i ∈ ([.obj [(kName, .str "   ".toList)], .obj [(kName, .str [])], .obj []] : List Json),
        isObjJ i = true)
    ∧ validateIngredientData (.obj [(kIngredients,
          .arr [.obj [(kName, .str "   ".toList)], .obj [(kName, .str [])], .obj []]),
          (kTotalItems, .num 3), (kDetConf, .str "high".toList)])
        = some ⟨ingRecsOf [.obj [(kName, .str "   ".toList)], .obj [(kName, .str [])], .obj []],
                .str "high".toList,
                (ingRecsOf [.obj [(kName, .str "   ".toList)], .obj [(kName, .str [])], .obj []]).length⟩ :=
  ⟨by decide,
   (C3_name_filter_amended
      [.obj [(kName, .str "   ".toList)], .obj [(kName, .str [])], .obj []]
      (.num 3) (.str "high".toList) (by decide)).1⟩

/-- C4 counterexample: the claim quantifies over responses; this response
    contains two valid recipe candidates (each individually accepted by
    the per-recipe normalizer), yet `validate_recipe_response` returns
    `None`, not a normalized batch of `min(2, 5) = 2` recipes — the
    extraction regex mis-scopes on recipes with nested structure, and the
    scoped text fails `json.loads`. -/
theorem C4_nested_recipes_rejected :
    jsonLoads twoRecResp = some (.obj [(kRecipes, .arr twoRecCands)])
    ∧ twoRecCands.length = 2
    ∧ (∀ x ∈ twoRecCands, (fmtRecipe x).isSome = true)
    ∧ validateRecipeResponse twoRecResp = none :=
  ⟨rfl, rfl, by decide, rfl⟩

/-- C4 as amended: on the parsed candidate level the batch logic is as
    claimed — given `N ≥ 0` valid candidates the normalized output has
    `min(5, N)` recipes, the first five in their original order (stable
    truncation, never padded), a batch of fewer than five is accepted,
    and only zero recipes is a content failure (`None`). -/
theorem C4_recipe_cap_amended (xs : List Json)
    (h : ∀ x ∈ xs, (fmtRecipe x).isSome = true) :
    (xs = [] → validateRecipeData (.obj [(kRecipes, .arr xs)]) = none)
    ∧ (xs ≠ [] → ∃ fr, validateRecipeData (.obj [(kRecipes, .arr xs)]) = some fr
        ∧ fr.length = min 5 xs.length ∧ fmtAll (xs.take 5) = some fr) := by
  constructor
  · intro hnil; subst hnil; rfl
  · intro hne
    obtain ⟨fr, hfr, hlen⟩ :=
      fmtAll_isSome (xs.take 5) fun x hx => h x (List.mem_of_mem_take hx)
    have hlen5 : fr.length = min 5 xs.length := by
      rw [hlen, List.length_take]
    have hfrne : fr.isEmpty = false := by
      cases xs with
      | nil => exact absurd rfl hne
      | cons a t =>
        have : 0 < fr.length := by rw [hlen5]; simp [Nat.lt_min]
        cases fr with
        | nil => simp at this
        | cons b u => rfl
    refine ⟨fr, ?_, hlen5, hfr⟩
    show fmtBatch xs = some fr
    simp [fmtBatch, hfr, hfrne]

/-- Witness for `C4_recipe_cap_amended`: two flat candidates, a batch of
    fewer than five, accepted with both recipes in order. -/
theorem C4_recipe_cap_amended_witness :
    (∀ x ∈ ([.obj [(kName, .str ['A'])], .obj [(kName, .str ['B'])]] : List Json),
        (fmtRecipe x).isSome = true)
    ∧ (([.obj [(kName, .str ['A'])], .obj [(kName, .str ['B'])]] : List Json) = [] →
        validateRecipeData (.obj [(kRecipes,
          .arr [.obj [(kName, .str ['A'])], .obj [(kName, .str ['B'])]])]) = none)
    ∧ (([.obj [(kName, .str ['A'])], .obj [(kName, .str ['B'])]] : List Json) ≠ [] →
        ∃ fr, validateRecipeData (.obj [(kRecipes,
            .arr [.obj [(kName, .str ['A'])], .obj [(kName, .str ['B'])]])]) = some fr
          ∧ fr.length = min 5 ([.obj [(kName, .str ['A'])], .obj [(kName, .str ['B'])]] : List Json).length
          ∧ fmtAll (([.obj [(kName, .str ['A'])], .obj [(kName, .str ['B'])]] : List Json).take 5) = some fr) :=
  ⟨by decide,
   (C4_recipe_cap_amended [.obj [(kName, .str ['A'])], .obj [(kName, .str ['B'])]] (by decide)).1,
   (C4_recipe_cap_amended [.obj [(kName, .str ['A'])], .obj [(kName, .str ['B'])]] (by decide)).2⟩

/-- C5: a PipelineResult of the combined pipeline never simultaneously
    has a non-null `error` and a non-empty `recipes` list, for every
    upstream outcome (missing key, exception, any response text). -/
theorem C5_error_content_exclusive (u : Upstream) :
    (analyzeFridge u).error = none ∨ (analyzeFridge u).recipes = Json.arr [] := by
  cases u with
  | noClient => exact Or.inr rfl
  | exn m => exact Or.inr rfl
  | ok content =>
    simp only [analyzeFridge]
    cases parseCombined content with
    | exc => exact Or.inr rfl
    | ok p =>
      by_cases h1 : pyTruthy p.ingredients
      · simp [h1, successResult]
      · simp only [Bool.not_eq_true] at h1
        simp only [h1, Bool.false_eq_true, if_false]
        cases p.image_analysis with
        | obj ms =>
          by_cases h2 : pyTruthy (getKeyD ms kIsFood (.bool true))
          · simp [h2, successResult]
          · simp only [Bool.not_eq_true] at h2
            simp [h2, errResult]
        | null => exact Or.inr rfl
        | bool b => exact Or.inr rfl
        | num n => exact Or.inr rfl
        | str s => exact Or.inr rfl
        | arr xs => exact Or.inr rfl

/-- C6 counterexample: the claim says a response with no recoverable JSON
    yields a non-null ParseFailure error from the combined pipeline.  It
    does not: the parse-failure marker is buried inside
    `image_analysis.error`, the orchestrator's detection check reads
    `is_food_image` with default `True` and therefore passes the failure
    dict through, so the returned dict has no top-level `error` at all. -/
theorem C6_no_toplevel_error :
    analyzeFridge (.ok catResp)
      = ⟨.arr [], .arr [], some (.obj [(kError, .str msgParseFail)]), none, some catResp⟩ :=
  rfl

/-- C6 as amended: for every response on which all extraction steps fail,
    the combined pipeline returns `ingredients = []`, `recipes = []` and a
    null top-level error; the ParseFailure marker is recorded only as
    `image_analysis = {"error": "Failed to parse response"}`, a text
    distinct from the EmptyContent message. -/
theorem C6_parse_failure_amended (content : List Char)
    (h : parseCombined content = .ok (pcFail content)) :
    analyzeFridge (.ok content)
      = ⟨.arr [], .arr [], some (.obj [(kError, .str msgParseFail)]), none, some content⟩
    ∧ msgParseFail ≠ msgNoFood := by
  refine ⟨?_, by decide⟩
  simp only [analyzeFridge, h]
  rfl

/-- Witness for `C6_parse_failure_amended` at the no-JSON response. -/
theorem C6_parse_failure_amended_witness :
    parseCombined catResp = .ok (pcFail catResp)
    ∧ analyzeFridge (.ok catResp)
        = ⟨.arr [], .arr [], some (.obj [(kError, .str msgParseFail)]), none, some catResp⟩ :=
  ⟨rfl, (C6_parse_failure_amended catResp rfl).1⟩

/-- C7: when parsing and validation of the model response both fail,
    `generate_meals` returns the empty sequence (never fabricated
    placeholder content). -/
theorem C7_empty_on_failure (content : List Char)
    (h1 : validateRecipeResponse content = none)
    (h2 : rawArrayFallback content = .empty) :
    generateMealsFromContent content = .empty := by
  simp [generateMealsFromContent, h1, h2]

/-- Witness for `C7_empty_on_failure` at a prose-only response. -/
theorem C7_empty_on_failure_witness :
    validateRecipeResponse "hello".toList = none
    ∧ rawArrayFallback "hello".toList = .empty
    ∧ generateMealsFromContent "hello".toList = .empty :=
  ⟨rfl, rfl, C7_empty_on_failure "hello".toList rfl rfl⟩

/-- C8 counterexample: the claim says numeric-looking nutrition strings
    (for example `"400"`) are coerced to integers.  They are not: the
    nutrition values are copied through unchanged, so `"400"` stays the
    string `"400"`. -/
theorem C8_no_numeric_coercion :
    (fmtRecipe strCalRecipe).map RecOut.calories = some (.str "400".toList)
    ∧ Json.str "400".toList ≠ Json.num 400 :=
  ⟨rfl, fun h => Json.noConfusion h⟩

/-- C8 as amended: nutrition values are copied through with no coercion
    at all — whatever value sits under `calories` (numeric-looking string,
    `"N/A"`, anything) appears unchanged in the normalized recipe; only a
    missing value defaults through the alias chain. -/
theorem C8_nutrition_passthrough_amended (ms ns : List (List Char × Json)) (v : Json)
    (hn : (match getKey ms kNutritionInfo with
           | some w => w
           | none => getKeyD ms kNutrition (.obj [])) = .obj ns)
    (hcal : getKey ns kCalories = some v)
    (hi : (instrList (getKeyD ms kInstructions (.arr []))).isSome = true) :
    (fmtRecipe (.obj ms)).map RecOut.calories = some v := by
  obtain ⟨il, hil⟩ := Option.isSome_iff_exists.mp hi
  simp only [fmtRecipe, hn, hil, Option.map_some]
  simp [hcal]

/-- Witness for `C8_nutrition_passthrough_amended`: the string `"N/A"`
    is preserved as the literal string. -/
theorem C8_nutrition_passthrough_amended_witness :
    (match getKey [(kNutrition, Json.obj [(kCalories, Json.str "N/A".toList)])] kNutritionInfo with
     | some w => w
     | none => getKeyD [(kNutrition, Json.obj [(kCalories, Json.str "N/A".toList)])] kNutrition (.obj []))
       = Json.obj [(kCalories, Json.str "N/A".toList)]
    ∧ (fmtRecipe (.obj [(kNutrition, Json.obj [(kCalories, Json.str "N/A".toList)])])).map
        RecOut.calories = some (Json.str "N/A".toList) :=
  ⟨rfl, C8_nutrition_passthrough_amended
    [(kNutrition, Json.obj [(kCalories, Json.str "N/A".toList)])]
    [(kCalories, Json.str "N/A".toList)] (Json.str "N/A".toList) rfl rfl rfl⟩

/-- C9: for a successfully parsed combined response whose
    `image_analysis` is a dict with a boolean-or-absent `is_food_image`
    and a list under `ingredients`, the orchestrator short-circuits to
    the detection-failure outcome exactly when `is_food_image` is `false`
    AND the ingredient list is empty; in every other case the parse
    result is passed through unchanged (in particular, a non-food image
    with a non-empty hallucinated ingredient list). -/
theorem C9_detection_failure_iff (content : List Char)
    (ms ims : List (List Char × Json)) (xs : List Json)
    (hld : jsonLoads content = some (.obj ms))
    (hia : getKeyD ms kImageAnalysis (.obj []) = .obj ims)
    (hing : getKeyD ms kIngredients (.arr []) = .arr xs)
    (hb : getKey ims kIsFood = none ∨ ∃ b, getKey ims kIsFood = some (.bool b)) :
    (analyzeFridge (.ok content) = errResult msgNoFood
      ↔ (xs = [] ∧ getKey ims kIsFood = some (.bool false)))
    ∧ (¬(xs = [] ∧ getKey ims kIsFood = some (.bool false)) →
        analyzeFridge (.ok content) = successResult (pcFromData ms content)) := by
  have hp : parseCombined content = .ok (pcFromData ms content) := by
    simp [parseCombined, hld]
  have hsucc_ne : successResult (pcFromData ms content) ≠ errResult msgNoFood := by
    intro hcontra
    have := congrArg PipelineResult.error hcontra
    simp [successResult, errResult] at this
  have hstep : analyzeFridge (.ok content)
      = if pyTruthy (pcFromData ms content).ingredients then successResult (pcFromData ms content)
        else match (pcFromData ms content).image_analysis with
          | .obj ims2 =>
            if pyTruthy (getKeyD ims2 kIsFood (.bool true)) then successResult (pcFromData ms content)
            else errResult msgNoFood
          | _ => errResult (errPre ++ msgAttr) := by
    simp only [analyzeFridge, hp]
  have hingr : (pcFromData ms content).ingredients = .arr xs := hing
  have hiae : (pcFromData ms content).image_analysis = .obj ims := hia
  rw [hingr, hiae] at hstep
  dsimp only at hstep
  cases xs with
  | cons a t =>
    rw [if_pos (by simp [pyTruthy])] at hstep
    constructor
    · rw [hstep]
      constructor
      · intro hcontra; exact absurd hcontra hsucc_ne
      · rintro ⟨hnil, _⟩; cases hnil
    · intro _; exact hstep
  | nil =>
    rw [if_neg (by simp [pyTruthy])] at hstep
    rcases hb with hnone | ⟨b, hsome⟩
    · rw [show getKeyD ims kIsFood (.bool true) = .bool true from by
        simp [getKeyD, hnone]] at hstep
      rw [if_pos (by simp [pyTruthy])] at hstep
      constructor
      · rw [hstep]
        constructor
        · intro hcontra; exact absurd hcontra hsucc_ne
        · rintro ⟨_, hfalse⟩; rw [hnone] at hfalse; cases hfalse
      · intro _; exact hstep
    · rw [show getKeyD ims kIsFood (.bool true) = .bool b from by
        simp [getKeyD, hsome]] at hstep
      cases b with
      | true =>
        rw [if_pos (by simp [pyTruthy])] at hstep
        constructor
        · rw [hstep]
          constructor
          · intro hcontra; exact absurd hcontra hsucc_ne
          · rintro ⟨_, hfalse⟩
            rw [hsome] at hfalse
            cases hfalse
        · intro _; exact hstep
      | false =>
        rw [if_neg (by simp [pyTruthy])] at hstep
        constructor
        · rw [hstep]
          exact ⟨fun _ => ⟨rfl, hsome⟩, fun _ => rfl⟩
        · intro hcontra; exact absurd ⟨rfl, hsome⟩ hcontra


/-- Witness for `C9_detection_failure_iff`: a well-formed response with
    `is_food_image = false` and an empty ingredient list yields exactly
    the EmptyContent outcome. -/
theorem C9_detection_failure_iff_witness :
    jsonLoads noFoodResp = some (.obj noFoodMs)
    ∧ (analyzeFridge (.ok noFoodResp) = errResult msgNoFood
        ↔ (([] : List Json) = [] ∧ getKey [(kIsFood, Json.bool false)] kIsFood = some (.bool false))) :=
  ⟨rfl, (C9_detection_failure_iff noFoodResp noFoodMs [(kIsFood, .bool false)] []
    rfl rfl rfl (Or.inr ⟨false, rfl⟩)).1⟩

/-- C10: for every candidate accepted by the ingredient validator, the
    returned `total_items` equals the length of the filtered ingredient
    list; the model-supplied `total_items` value is only checked for
    presence and never propagated (any two values give the same output);
    and each output `quantity` is the `str(...)` form of the model's
    `estimated_quantity`, the empty string when absent. -/
theorem C10_total_items_derived (ings : List Json) (tv tv' cv : Json)
    (h : ∀ i ∈ ings, isObjJ i = true) :
    ∃ out,
      validateIngredientData (.obj [(kIngredients, .arr ings), (kTotalItems, tv), (kDetConf, cv)])
        = some out
      ∧ out.total_items = out.ingredients.length
      ∧ validateIngredientData (.obj [(kIngredients, .arr ings), (kTotalItems, tv'), (kDetConf, cv)])
          = some out
      ∧ out.ingredients.map IngRec.quantity
          = (ings.filter ingKeepJ).map fun i =>
              match i with
              | .obj ms => pyStr (getKeyD ms kEstQ (.str []))
              | _ => [] :=
  ⟨⟨ingRecsOf ings, cv, (ingRecsOf ings).length⟩,
   validateIngredientData_eq ings tv cv h, rfl,
   validateIngredientData_eq ings tv' cv h, ingRecs_quantity ings h⟩

/-- Witness for `C10_total_items_derived`: one kept candidate with a
    numeric `estimated_quantity`, one dropped; the model-supplied
    `total_items` of 99 is ignored. -/
theorem C10_total_items_derived_witness :
    (∀ i ∈ ([.obj [(kName, .str "egg".toList), (kEstQ, .num 6)], .obj []] : List Json),
        isObjJ i = true)
    ∧ ∃ out,
      validateIngredientData (.obj [(kIngredients,
          .arr [.obj [(kName, .str "egg".toList), (kEstQ, .num 6)], .obj []]),
          (kTotalItems, .num 99), (kDetConf, .str "high".toList)])
        = some out
      ∧ out.total_items = out.ingredients.length
      ∧ validateIngredientData (.obj [(kIngredients,
          .arr [.obj [(kName, .str "egg".toList), (kEstQ, .num 6)], .obj []]),
          (kTotalItems, .num 0), (kDetConf, .str "high".toList)])
          = some out
      ∧ out.ingredients.map IngRec.quantity
          = (([.obj [(kName, .str "egg".toList), (kEstQ, .num 6)], .obj []] : List Json).filter
              ingKeepJ).map fun i =>
                match i with
                | .obj ms => pyStr (getKeyD ms kEstQ (.str []))
                | _ => [] :=
  ⟨by decide,
   C10_total_items_derived [.obj [(kName, .str "egg".toList), (kEstQ, .num 6)], .obj []]
     (.num 99) (.num 0) (.str "high".toList) (by decide)⟩

/-- Concrete C1 input: two ingredients whose names contain a bracket and
    an escaped quote (the scanner's hard cases), two recipes. -/
def c1Ings : List Json :=
  [.obj [(kName, .str "egg".toList)],
   .obj [(kName, .str "a]b".toList)],
   .obj [(kName, .str ("c" ++ String.mk ['\x22'] ++ "]d").toList)]]

/-- Concrete C1 input: the recipes that get truncated. -/
def c1Rs : List Json :=
  [.obj [(kName, .str "R1".toList)], .obj [(kName, .str "R2".toList)]]

/-- C1 witness: truncating the concrete document three characters into
    its recipes section still recovers all three ingredients. -/
theorem C1_truncation_recovers_ingredients_witness :
    ∃ rec ia, parseCombinedArchive
        ((serDoc c1Ings c1Rs).take (18 + (serItems c1Ings).length + 3))
      = .ok ⟨.arr c1Ings, rec, ia,
          (serDoc c1Ings c1Rs).take (18 + (serItems c1Ings).length + 3)⟩ :=
  C1_truncation_recovers_ingredients c1Ings c1Rs (18 + (serItems c1Ings).length + 3)
    (by decide) (by decide)

end SnapChef
